import Mathlib

/-!
Verification development for the youtube-song-sync repository (package `ytss`).

The definitions below are a shallow embedding of the Python sources:
  * `src/ytss/utils.py`      — title parsing and filename derivation,
  * `src/ytss/song.py`       — the `Song` record and its future-value scans,
  * `src/ytss/song_actions.py` — the closed set of deferred actions,
  * `src/ytss/playlist.py`   — the reconciliation algorithm `Playlist.sync`
    together with the grouping done in `Playlist.__post_init__` and the
    delete pass.

Python strings are modelled as Lean `String`/`List Char`; Python `None` as
`Option.none`; Python `int` as `Int` (positions produced by `enumerate` are
`Nat` and are coerced where they are stored); dictionaries as association
lists in insertion order (Python 3.7+ dicts preserve insertion order);
exceptions as `Except`.  External collaborators (the network fetch performed
by `yt_dlp`, the filesystem, the id3 tag store) are parameters or are noted
in the comments of the definitions that elide them.
-/

namespace Ytss

/-! ### utils.py -/

/-- the string constant `RESERVED_FILENAME_CHARS` of `ytss/constants.py`. -/
def RESERVED_FILENAME_CHARS : List Char := ['<', '>', ':', '"', '/', '\\', '|', '?', '*']

/-- embedding of `utils.sanitize_filename` (utils.py:88-90): Python's
`str.translate` with a deletion table removes every occurrence of the
reserved characters. -/
def sanitize_filename (filename : String) : String :=
  ⟨filename.data.filter (fun c => !(RESERVED_FILENAME_CHARS.contains c))⟩

/-- embedding of `utils.make_filename` (utils.py:79-85).  Python's
`f"{index} ..."` renders the integer in decimal, which is `toString` on
`Int`. -/
def make_filename (artist : Option String) (title : String) (index : Int) : String :=
  match artist with
  | none => sanitize_filename (toString index ++ " " ++ title ++ ".mp3")
  | some a => sanitize_filename (toString index ++ " " ++ a ++ " - " ++ title ++ ".mp3")

/-- scan for the closing character of a non-greedy `re` match: returns the
offset of the first occurrence of `closeC`, failing on a newline first,
because `.` in a Python regex does not match `\n`. -/
def findClose (closeC : Char) : List Char → Option Nat
  | [] => none
  | c :: cs =>
    if c = closeC then some 0
    else if c = '\n' then none
    else (findClose closeC cs).map (· + 1)

/-- spans (start, end-exclusive) of the non-overlapping matches of the
non-greedy pattern `open .*? close` as found by `re.finditer`
(utils.py:44, utils.py:46): at each occurrence of `openC` the match ends at
the first following `closeC` (no newline in between); on failure the scan
resumes one character later, on success right after the match.  The first
argument is recursion fuel; `cs.length` is always enough because every
recursive call consumes at least one character. -/
def spansFromF (openC closeC : Char) : Nat → List Char → Nat → List (Nat × Nat)
  | 0, _, _ => []
  | _, [], _ => []
  | fuel + 1, c :: rest, pos =>
    if c = openC then
      match findClose closeC rest with
      | some m => (pos, pos + m + 2) :: spansFromF openC closeC fuel (rest.drop (m + 1)) (pos + m + 2)
      | none => spansFromF openC closeC fuel rest (pos + 1)
    else spansFromF openC closeC fuel rest (pos + 1)

/-- all match spans of `open .*? close` over a character list. -/
def spansFrom (openC closeC : Char) (cs : List Char) : List (Nat × Nat) :=
  spansFromF openC closeC cs.length cs 0

/-- a Python slice `cs[a:b]` on nonnegative bounds (empty when `b ≤ a`,
clamped at the end of the list). -/
def sliceCh (cs : List Char) (a b : Nat) : List Char :=
  (cs.drop a).take (b - a)

/-- the marker-word tuple `("audio", "lyric", "video", "hq")` of
utils.py:48. -/
def TITLE_JUNK_WORDS : List (List Char) :=
  ["audio".data, "lyric".data, "video".data, "hq".data]

/-- model of Python `str.casefold` used at utils.py:47: per-character
lowercasing.  (Full Unicode casefolding differs on a few exotic code
points, none of which can influence the ASCII marker-word search.) -/
def pyCasefold (cs : List Char) : List Char := cs.map Char.toLower

/-- Python's substring test `needle in hay` on character lists. -/
def isSubstring (needle : List Char) : List Char → Bool
  | [] => needle.isEmpty
  | c :: cs => needle.isPrefixOf (c :: cs) || isSubstring needle cs

/-- the parenthesized spans appended to `remove_spans` at utils.py:46-50:
for each `(...)` match, the span is appended once per marker word contained
in its casefolded text (the inner `for` has no `break`). -/
def parenRemoveSpans (cs : List Char) : List (Nat × Nat) :=
  (spansFrom '(' ')' cs).flatMap (fun sp =>
    (TITLE_JUNK_WORDS.filter (fun w => isSubstring w (pyCasefold (sliceCh cs sp.1 sp.2)))).map
      (fun _ => sp))

/-- the tail of the reconstruction loop at utils.py:52-60: given the end of
the previously handled span, emit `title[prev_end:start]` for each later
span and finally `title[last_end:]`. -/
def middleParts (cs : List Char) : Nat → List (Nat × Nat) → List Char
  | lastEnd, [] => cs.drop lastEnd
  | lastEnd, (s, e) :: rest => sliceCh cs lastEnd s ++ middleParts cs e rest

/-- the whole reconstruction `clean_video_title` of utils.py:51-62: the
spans are consumed in list order, exactly as the Python loop slices. -/
def removeSpans (cs : List Char) (spans : List (Nat × Nat)) : List Char :=
  match spans with
  | [] => cs
  | (s0, e0) :: rest => cs.take s0 ++ middleParts cs e0 rest

/-- embedding of `str.split(" - ", maxsplit=1)` (utils.py:65): split at the
first occurrence of the literal separator, `none` when absent. -/
def splitOnceDash : List Char → Option (List Char × List Char)
  | [] => none
  | c :: cs =>
    if [' ', '-', ' '].isPrefixOf (c :: cs) then some ([], cs.drop 2)
    else
      match splitOnceDash cs with
      | some (a, b) => some (c :: a, b)
      | none => none

/-- model of Python `str.strip()`: drop whitespace from both ends.  (Lean's
`Char.isWhitespace` agrees with Python on the ASCII whitespace the titles
contain.) -/
def pyStrip (cs : List Char) : List Char :=
  ((cs.dropWhile Char.isWhitespace).reverse.dropWhile Char.isWhitespace).reverse

/-- embedding of `utils.parse_video_title` (utils.py:41-76). -/
def parse_video_title (video_title : String) : Option String × String :=
  let cs := video_title.data
  let remove_spans := spansFrom '[' ']' cs ++ parenRemoveSpans cs
  let clean := removeSpans cs remove_spans
  match splitOnceDash clean with
  | none => (none, (pyStrip clean).asString)
  | some (a, t) => (some (pyStrip a).asString, (pyStrip t).asString)

/-! ### song_actions.py and song.py -/

/-- the closed set of `SongAction` subclasses of `ytss/song_actions.py`.
`Download.output_file` is a `pathlib.Path`, modelled as a string. -/
inductive SongAction where
  | UpdateVideoIdMetadata (video_id : String)
  | UpdateIndexMetadata (index : Int)
  | UpdateArtistMetadata (artist : Option String)
  | UpdateTitleMetadata (title : String)
  | Download (video_id : String) (output_file : String)
  | Delete
  | Normalize
  | RenameFile (new_name : String)
  deriving Repr, DecidableEq

/-- the `Song` dataclass of `ytss/song.py` (all fields default to
`None`/the empty list). -/
structure Song where
  video_id : Option String := none
  index : Option Int := none
  artist : Option String := none
  title : Option String := none
  file : Option String := none
  actions : List SongAction := []
  deriving Repr, DecidableEq

/-- a `Song()` with every field at its dataclass default. -/
def emptySong : Song := {}

/-- embedding of `Song.get_future_video_id` (song.py:77-82): a linear scan
that keeps the payload of the last `UpdateVideoIdMetadata` in the queue. -/
def Song.get_future_video_id (s : Song) : Option String :=
  s.actions.foldl
    (fun v a => match a with
      | .UpdateVideoIdMetadata x => some x
      | _ => v)
    s.video_id

/-- embedding of `Song.get_future_index` (song.py:84-89). -/
def Song.get_future_index (s : Song) : Option Int :=
  s.actions.foldl
    (fun v a => match a with
      | .UpdateIndexMetadata x => some x
      | _ => v)
    s.index

/-- embedding of `Song.get_future_artist` (song.py:91-96). -/
def Song.get_future_artist (s : Song) : Option String :=
  s.actions.foldl
    (fun v a => match a with
      | .UpdateArtistMetadata x => x
      | _ => v)
    s.artist

/-- embedding of `Song.get_future_title` (song.py:98-103). -/
def Song.get_future_title (s : Song) : Option String :=
  s.actions.foldl
    (fun v a => match a with
      | .UpdateTitleMetadata x => some x
      | _ => v)
    s.title

/-- model of `pathlib.Path.with_name`: replace the final path component. -/
def pathWithName (p n : String) : String :=
  String.intercalate "/" ((p.splitOn "/").dropLast ++ [n])

/-- the in-memory field writes each `SongAction.apply` performs on its
`Song` (song_actions.py:51-52, 62-63, 73-74, 82-83, 112-113, 167-174).
External side effects (tag store, download, filesystem) and the apply-time
failures on a missing file are outside this projection; `Delete` and
`Normalize` write no `Song` field at all. -/
def applyFields (s : Song) (a : SongAction) : Song :=
  match a with
  | .UpdateVideoIdMetadata v => { s with video_id := some v }
  | .UpdateIndexMetadata i => { s with index := some i }
  | .UpdateArtistMetadata a' => { s with artist := a' }
  | .UpdateTitleMetadata t => { s with title := some t }
  | .Download v f => { s with video_id := some v, file := some f }
  | .Delete => s
  | .Normalize => s
  | .RenameFile n => { s with file := s.file.map (fun f => pathWithName f n) }

/-- the committed state a song would reach after running a queue of actions
in order (the field-write part of `Song.apply`, song.py:20-22). -/
def runSong (s : Song) (acts : List SongAction) : Song :=
  acts.foldl applyFields s

/-! ### playlist.py -/

/-- the fields `Playlist.sync` reads from one playlist-entry dict of
`playlist_info["entries"]`: `none` models a dict without the key. -/
structure VideoInfo where
  id : Option String := none
  title : Option String := none
  deriving Repr, DecidableEq

/-- the `YoutubeVideoMetadataError` raises reachable from the sync loop:
`noId i` is the raise at playlist.py:271-274 for the entry at index `i`,
`infoMissingTitle v` is `YoutubeVideoMetadataError.info_missing_key`
raised from `utils.get_video_title` (utils.py:30-33). -/
inductive SyncError where
  | noId (index : Nat)
  | infoMissingTitle (video_id : String)
  deriving Repr, DecidableEq

/-- first-match lookup in an association list (Python `d[k]` / `k in d`;
the lists built here have unique keys, as dicts do). -/
def alookup {β : Type} : List (String × β) → String → Option β
  | [], _ => none
  | (k, v) :: rest, key => if k = key then some v else alookup rest key

/-- one step of the grouping at playlist.py:44-48: append the song index to
the queue of its video id, creating the queue (at the end, in dict
insertion order) when the key is new. -/
def addRemaining : List (String × List Nat) → String → Nat → List (String × List Nat)
  | [], key, j => [(key, [j])]
  | (k, q) :: rest, key, j =>
    if k = key then (k, q ++ [j]) :: rest else (k, q) :: addRemaining rest key j

/-- the loop of `Playlist.__post_init__` over the loaded songs
(playlist.py:30-48), restricted to the dictionary it builds: songs are
numbered in load order.  A loaded song always has a video id (files whose
video-id tag is missing are skipped at playlist.py:34-38 and never reach
`self.songs`); a `none` id is therefore skipped here as well. -/
def buildRemainingAux : List Song → Nat → List (String × List Nat) → List (String × List Nat)
  | [], _, rem => rem
  | s :: rest, j, rem =>
    match s.video_id with
    | some k => buildRemainingAux rest (j + 1) (addRemaining rem k j)
    | none => buildRemainingAux rest (j + 1) rem

/-- the `video_id_to_remaining_songs` dictionary as built by
`Playlist.__post_init__`, with songs represented by their position in
`self.songs`. -/
def buildRemaining (songs : List Song) : List (String × List Nat) :=
  buildRemainingAux songs 0 []

/-- `deque.popleft` on the queue of `key` (playlist.py:282): the first
entry holding `key` keeps its key and loses its queue head. -/
def popHead : List (String × List Nat) → String → List (String × List Nat)
  | [], _ => []
  | (k, q) :: rest, key =>
    if k = key then (k, q.tail) :: rest else (k, q) :: popHead rest key

/-- update of the element at position `j` of a list (the in-place mutation
of the `Song` object shared by `self.songs` and the deque). -/
def modifyIdx {α : Type} : List α → Nat → (α → α) → List α
  | [], _, _ => []
  | a :: rest, 0, f => f a :: rest
  | a :: rest, j + 1, f => a :: modifyIdx rest j f

/-- the actions the matched branch appends to an existing song for the
entry at index `i` (playlist.py:283-294): nothing when the committed index
already equals `i`; otherwise `UpdateIndexMetadata i`, followed by a
`RenameFile` derived from the committed artist/title exactly when renames
are allowed and the committed title is known. -/
def matchedActions (s : Song) (i : Nat) (rename_allowed : Bool) : List SongAction :=
  if s.index = some (i : Int) then []
  else
    .UpdateIndexMetadata (i : Int) ::
      (if rename_allowed then
        match s.title with
        | some t => [.RenameFile (make_filename s.artist t (i : Int))]
        | none => []
      else [])

/-- the new `Song` built by the creation branch (playlist.py:296-311): a
default `Song()` whose queue is the six-action sequence, with the download
target `self.dir / make_filename(artist, title, i)`. -/
def newSong (dir : String) (video_id : String) (artist : Option String) (title : String)
    (i : Nat) : Song :=
  { actions :=
      [.Download video_id (dir ++ "/" ++ make_filename artist title (i : Int)),
       .Normalize,
       .UpdateArtistMetadata artist,
       .UpdateTitleMetadata title,
       .UpdateIndexMetadata (i : Int),
       .UpdateVideoIdMetadata video_id] }

/-- embedding of `utils.get_video_title` (utils.py:20-38) as called from
the creation branch with the entry dict as `existing_video_info`:
`cache` is the module-level `cached_video_titles` dict, `fetch_title`
models the network lookup `utils.get_info(video_id)` (returning `none`
when the fetched info has no `"title"` key, the raise at utils.py:30-33).
The guard at utils.py:23 is the chained comparison
`video_id in cached_video_titles is not None`, which is plain dict
membership. -/
def get_video_title (fetch_title : String → Option String)
    (cache : List (String × String)) (video_id : String) (existing_title : Option String) :
    Except SyncError (String × List (String × String)) :=
  match alookup cache video_id with
  | some t => .ok (t, cache)
  | none =>
    match existing_title with
    | some t => .ok (t, cache ++ [(video_id, t)])
    | none =>
      match fetch_title video_id with
      | some t => .ok (t, cache ++ [(video_id, t)])
      | none => .error (.infoMissingTitle video_id)

/-- the mutable state the sync loop threads: `self.songs`, the
`video_id_to_remaining_songs` dict (queues hold positions in `songs`), and
the `utils.cached_video_titles` module dict. -/
structure SyncSt where
  songs : List Song
  remaining : List (String × List Nat)
  cache : List (String × String)
  deriving Repr, DecidableEq

/-- the `for i, video_info in enumerate(playlist_info["entries"])` loop of
`Playlist.sync` (playlist.py:266-312), entered at entry index `i`.  A
raised exception is modelled as `Except.error` carrying the state at the
raise, because the Python exception propagates while the in-place
mutations made so far stay on the `Song` objects. -/
def syncLoop (fetch_title : String → Option String) (dir : String) (rename_allowed : Bool) :
    Nat → List (Option VideoInfo) → SyncSt → Except (SyncError × SyncSt) SyncSt
  | _, [], st => .ok st
  | i, e :: rest, st =>
    match e with
    | none => syncLoop fetch_title dir rename_allowed (i + 1) rest st
    | some info =>
      match info.id with
      | none => .error (.noId i, st)
      | some video_id =>
        match alookup st.remaining video_id with
        | some (j :: _) =>
          syncLoop fetch_title dir rename_allowed (i + 1) rest
            { st with
              songs := modifyIdx st.songs j
                (fun s => { s with actions := s.actions ++ matchedActions s i rename_allowed }),
              remaining := popHead st.remaining video_id }
        | _ =>
          match get_video_title fetch_title st.cache video_id info.title with
          | .error err => .error (err, st)
          | .ok (vt, cache') =>
            syncLoop fetch_title dir rename_allowed (i + 1) rest
              { st with
                songs := st.songs ++
                  [newSong dir video_id (parse_video_title vt).1 (parse_video_title vt).2 i],
                cache := cache' }

/-- the inner `for song in remaining_songs` of the delete pass
(playlist.py:320-321). -/
def appendDeletesQ : List Song → List Nat → List Song
  | songs, [] => songs
  | songs, j :: q =>
    appendDeletesQ (modifyIdx songs j (fun s => { s with actions := s.actions ++ [.Delete] })) q

/-- the delete pass over `video_id_to_remaining_songs.values()`
(playlist.py:318-321). -/
def appendDeletes : List Song → List (String × List Nat) → List Song
  | songs, [] => songs
  | songs, (_, q) :: rest => appendDeletes (appendDeletesQ songs q) rest

/-- embedding of `Playlist.sync` (playlist.py:248-321) for a playlist whose
metadata fetch produced `entries`: build the grouping of
`__post_init__`, run the entry loop, then append a `Delete` to every song
left in a queue when deletion is allowed.  Fetching the playlist metadata,
the title assignment, and the `"entries" not in playlist_info` raise are
collaborator-facing and happen before any state of interest is touched. -/
def sync (fetch_title : String → Option String) (dir : String)
    (delete_allowed rename_allowed : Bool) (songs0 : List Song)
    (cache0 : List (String × String)) (entries : List (Option VideoInfo)) :
    Except (SyncError × SyncSt) SyncSt :=
  match syncLoop fetch_title dir rename_allowed 0 entries
      ⟨songs0, buildRemaining songs0, cache0⟩ with
  | .error e => .error e
  | .ok st =>
    .ok (if delete_allowed then { st with songs := appendDeletes st.songs st.remaining } else st)

/-! ### statement vocabulary

The next definitions do not embed source code; they are the vocabulary the
theorems below are stated in. -/

/-- the indices (absolute, `enumerate`-style, starting at `i`) of the
entries that are present and carry the id `k`. -/
def keyPositions (k : String) : List (Option VideoInfo) → Nat → List Nat
  | [], _ => []
  | e :: rest, i =>
    match e with
    | some info =>
      if info.id = some k then i :: keyPositions k rest (i + 1) else keyPositions k rest (i + 1)
    | none => keyPositions k rest (i + 1)

/-- the queue a remaining-map holds for `k` (empty when the key is
absent). -/
def queueOf (rem : List (String × List Nat)) (k : String) : List Nat :=
  (alookup rem k).getD []

/-- all song indices held by a remaining-map, in queue order. -/
def joinedQ (rem : List (String × List Nat)) : List Nat :=
  (rem.map Prod.snd).flatten

/-- the load-order indices of the songs carrying video id `k`, numbering
from `j0`. -/
def indicesWithKey : List Song → Nat → String → List Nat
  | [], _, _ => []
  | s :: rest, j0, k =>
    (if s.video_id = some k then [j0] else []) ++ indicesWithKey rest (j0 + 1) k

/-- the invariant the sync loop maintains on its state: distinct dict keys,
song indices distinct across all queues, in range, and still carrying
empty action queues. -/
structure Inv (st : SyncSt) : Prop where
  keys_nodup : (st.remaining.map Prod.fst).Nodup
  idx_nodup : (joinedQ st.remaining).Nodup
  bounded : ∀ j ∈ joinedQ st.remaining, j < st.songs.length
  empties : ∀ j ∈ joinedQ st.remaining, (st.songs.getD j emptySong).actions = []

/-! ### list helper lemmas -/

theorem modifyIdx_length {α : Type} : ∀ (l : List α) (j : Nat) (f : α → α),
    (modifyIdx l j f).length = l.length
  | [], _, _ => rfl
  | _ :: rest, 0, f => rfl
  | a :: rest, j + 1, f => by simp [modifyIdx, modifyIdx_length rest j f]

theorem modifyIdx_getD_self {α : Type} : ∀ (l : List α) (j : Nat) (f : α → α) (d : α),
    j < l.length → (modifyIdx l j f).getD j d = f (l.getD j d)
  | [], j, f, d, h => by simp at h
  | a :: rest, 0, f, d, _ => rfl
  | a :: rest, j + 1, f, d, h => by
    simpa [modifyIdx] using modifyIdx_getD_self rest j f d (by simpa using h)

theorem modifyIdx_getD_ne {α : Type} : ∀ (l : List α) (j : Nat) (f : α → α) (d : α) (j' : Nat),
    j' ≠ j → (modifyIdx l j f).getD j' d = l.getD j' d
  | [], _, _, _, _, _ => rfl
  | a :: rest, 0, f, d, 0, h => absurd rfl h
  | a :: rest, 0, f, d, j' + 1, _ => rfl
  | a :: rest, j + 1, f, d, 0, _ => rfl
  | a :: rest, j + 1, f, d, j' + 1, h => by
    simpa [modifyIdx] using modifyIdx_getD_ne rest j f d j' (fun hc => h (by omega))

theorem modifyIdx_drop {α : Type} : ∀ (l : List α) (j : Nat) (f : α → α) (n : Nat),
    j < n → (modifyIdx l j f).drop n = l.drop n
  | [], _, _, _, _ => rfl
  | a :: rest, 0, f, n + 1, _ => rfl
  | a :: rest, j + 1, f, n + 1, h => by
    simpa [modifyIdx] using modifyIdx_drop rest j f n (by omega)

theorem getD_append_left {α : Type} : ∀ (l l' : List α) (j : Nat) (d : α),
    j < l.length → (l ++ l').getD j d = l.getD j d
  | [], _, j, d, h => by simp at h
  | a :: rest, l', 0, d, _ => rfl
  | a :: rest, l', j + 1, d, h => by
    simpa using getD_append_left rest l' j d (by simpa using h)

theorem getD_append_length {α : Type} : ∀ (l : List α) (x : α) (j : Nat) (d : α),
    j = l.length → (l ++ [x]).getD j d = x
  | [], x, j, d, h => by subst h; rfl
  | a :: rest, x, j, d, h => by
    subst h
    simp [getD_append_length rest x rest.length d rfl]

theorem drop_get? {α : Type} : ∀ (l : List α) (n t : Nat),
    (l.drop n).get? t = l.get? (n + t)
  | _, 0, _ => by simp
  | [], n + 1, t => by simp
  | a :: rest, n + 1, t => by
    simp [Nat.succ_add, drop_get? rest n t]

theorem drop_eq_getD_cons {α : Type} : ∀ (l : List α) (n : Nat) (d : α),
    n < l.length → l.drop n = l.getD n d :: l.drop (n + 1)
  | [], n, d, h => by simp at h
  | a :: rest, 0, d, _ => rfl
  | a :: rest, n + 1, d, h => by
    simpa using drop_eq_getD_cons rest n d (by simpa using h)

theorem getD_eq_of_get? {α : Type} {l : List α} {j : Nat} {x d : α}
    (h : l.get? j = some x) : l.getD j d = x := by
  simp [List.getD_eq_getElem?_getD, ← List.get?_eq_getElem?, h]

theorem mem_of_get? {α : Type} {l : List α} {j : Nat} {x : α}
    (h : l.get? j = some x) : x ∈ l := List.get?_mem h

/-! ### association-list lemmas for the remaining-map -/

theorem alookup_popHead_self : ∀ (rem : List (String × List Nat)) (key : String)
    (q : List Nat), alookup rem key = some q →
    alookup (popHead rem key) key = some q.tail
  | [], key, q, h => by simp [alookup] at h
  | (k, q0) :: rest, key, q, h => by
    by_cases hk : k = key
    · simp [alookup, hk] at h
      simp [popHead, alookup, hk, h]
    · simp [alookup, hk] at h
      simpa [popHead, alookup, hk] using alookup_popHead_self rest key q h

theorem alookup_popHead_other : ∀ (rem : List (String × List Nat)) (key k : String),
    k ≠ key → alookup (popHead rem key) k = alookup rem k
  | [], _, _, _ => rfl
  | (k0, q0) :: rest, key, k, h => by
    by_cases hk : k0 = key
    · subst hk
      have hne : ¬ k0 = k := fun hc => h hc.symm
      simp [popHead, alookup, hne]
    · simp only [popHead, if_neg hk]
      by_cases hk2 : k0 = k
      · simp [alookup, hk2]
      · simpa [alookup, hk2] using alookup_popHead_other rest key k h

theorem map_fst_popHead : ∀ (rem : List (String × List Nat)) (key : String),
    (popHead rem key).map Prod.fst = rem.map Prod.fst
  | [], _ => rfl
  | (k, q) :: rest, key => by
    by_cases hk : k = key
    · simp [popHead, hk]
    · simpa [popHead, hk] using map_fst_popHead rest key

theorem queueOf_subset_joinedQ : ∀ (rem : List (String × List Nat)) (k : String),
    queueOf rem k ⊆ joinedQ rem
  | [], k => by simp [queueOf, alookup, joinedQ]
  | (k0, q0) :: rest, k => by
    by_cases hk : k0 = k
    · simp only [queueOf, alookup, if_pos hk, Option.getD_some, joinedQ, List.map_cons,
        List.flatten_cons]
      exact fun j hj => List.mem_append_left _ hj
    · intro j hj
      have hj' : j ∈ queueOf rest k := by
        simpa [queueOf, alookup, hk] using hj
      have := queueOf_subset_joinedQ rest k hj'
      simp only [joinedQ, List.map_cons, List.flatten_cons]
      exact List.mem_append_right _ (by simpa [joinedQ] using this)

theorem alookup_decomp : ∀ (rem : List (String × List Nat)) (key : String) (q0 : List Nat),
    alookup rem key = some q0 →
    ∃ L1 L2, joinedQ rem = L1 ++ q0 ++ L2 ∧
      joinedQ (popHead rem key) = L1 ++ q0.tail ++ L2 ∧
      (∀ k, k ≠ key → queueOf rem k ⊆ L1 ++ L2)
  | [], key, q0, h => by simp [alookup] at h
  | (k0, q) :: rest, key, q0, h => by
    by_cases hk : k0 = key
    · simp [alookup, hk] at h
      subst h
      refine ⟨[], joinedQ rest, by simp [joinedQ], by simp [popHead, hk, joinedQ], ?_⟩
      intro k hkk j hj
      have hj' : j ∈ queueOf rest k := by
        simpa [queueOf, alookup, hk ▸ (fun hc : k0 = k => hkk (hk ▸ hc ▸ rfl) : k0 = k → False)] using
          (by simpa [queueOf, alookup, show ¬ k0 = k from fun hc => hkk (by rw [← hc, hk])] using hj)
      simpa using queueOf_subset_joinedQ rest k hj'
    · simp only [alookup, if_neg hk] at h
      obtain ⟨L1, L2, h1, h2, h3⟩ := alookup_decomp rest key q0 h
      refine ⟨q ++ L1, L2, ?_, ?_, ?_⟩
      · simp [joinedQ] at h1 ⊢
        simp [h1]
      · simp [popHead, hk, joinedQ] at h2 ⊢
        simp [h2]
      · intro k hkk j hj
        by_cases hk2 : k0 = k
        · have : j ∈ q := by simpa [queueOf, alookup, hk2] using hj
          simp [this]
        · have hj' : j ∈ queueOf rest k := by simpa [queueOf, alookup, hk2] using hj
          have := h3 k hkk hj'
          rcases List.mem_append.mp this with h' | h'
          · simp [h']
          · simp [h']

/-! ### keyPositions lemmas -/

theorem keyPositions_nil (k : String) (i : Nat) : keyPositions k [] i = [] := rfl

theorem keyPositions_cons_none (k : String) (rest : List (Option VideoInfo)) (i : Nat) :
    keyPositions k (none :: rest) i = keyPositions k rest (i + 1) := rfl

theorem keyPositions_cons_some (k : String) (info : VideoInfo)
    (rest : List (Option VideoInfo)) (i : Nat) :
    keyPositions k (some info :: rest) i =
      if info.id = some k then i :: keyPositions k rest (i + 1)
      else keyPositions k rest (i + 1) := rfl

theorem le_of_mem_keyPositions (k : String) : ∀ (entries : List (Option VideoInfo))
    (i p : Nat), p ∈ keyPositions k entries i → i ≤ p
  | [], i, p, h => by simp [keyPositions] at h
  | none :: rest, i, p, h => by
    have := le_of_mem_keyPositions k rest (i + 1) p (by simpa [keyPositions] using h)
    omega
  | some info :: rest, i, p, h => by
    rw [keyPositions_cons_some] at h
    by_cases hid : info.id = some k
    · rw [if_pos hid] at h
      rcases List.mem_cons.mp h with h | h
      · omega
      · have := le_of_mem_keyPositions k rest (i + 1) p h
        omega
    · rw [if_neg hid] at h
      have := le_of_mem_keyPositions k rest (i + 1) p h
      omega

theorem keyPositions_pairwise (k : String) : ∀ (entries : List (Option VideoInfo)) (i : Nat),
    (keyPositions k entries i).Pairwise (· < ·)
  | [], i => by simp [keyPositions]
  | none :: rest, i => by
    simpa [keyPositions] using keyPositions_pairwise k rest (i + 1)
  | some info :: rest, i => by
    rw [keyPositions_cons_some]
    by_cases hid : info.id = some k
    · rw [if_pos hid]
      refine List.Pairwise.cons ?_ (keyPositions_pairwise k rest (i + 1))
      intro p hp
      have := le_of_mem_keyPositions k rest (i + 1) p hp
      omega
    · rw [if_neg hid]
      exact keyPositions_pairwise k rest (i + 1)

theorem mem_keyPositions_iff (k : String) : ∀ (entries : List (Option VideoInfo))
    (i p : Nat), p ∈ keyPositions k entries i ↔
      ∃ v, i ≤ p ∧ entries.get? (p - i) = some (some v) ∧ v.id = some k
  | [], i, p => by simp [keyPositions]
  | none :: rest, i, p => by
    rw [keyPositions_cons_none, mem_keyPositions_iff k rest (i + 1) p]
    constructor
    · rintro ⟨v, hle, hget, hidv⟩
      refine ⟨v, by omega, ?_, hidv⟩
      have : p - i = (p - (i + 1)) + 1 := by omega
      rw [this]
      simpa using hget
    · rintro ⟨v, hle, hget, hidv⟩
      have hne : p ≠ i := by
        intro he
        subst he
        simp at hget
      refine ⟨v, by omega, ?_, hidv⟩
      have : p - i = (p - (i + 1)) + 1 := by omega
      rw [this] at hget
      simpa using hget
  | some info :: rest, i, p => by
    rw [keyPositions_cons_some]
    by_cases hid : info.id = some k
    · rw [if_pos hid]
      constructor
      · intro h
        rcases List.mem_cons.mp h with h | h
        · subst h
          exact ⟨info, le_refl _, by simp, hid⟩
        · obtain ⟨v, hle, hget, hidv⟩ := (mem_keyPositions_iff k rest (i + 1) p).mp h
          refine ⟨v, by omega, ?_, hidv⟩
          have : p - i = (p - (i + 1)) + 1 := by omega
          rw [this]
          simpa using hget
      · rintro ⟨v, hle, hget, hidv⟩
        by_cases hpe : p = i
        · exact List.mem_cons.mpr (Or.inl hpe)
        · refine List.mem_cons.mpr (Or.inr ?_)
          refine (mem_keyPositions_iff k rest (i + 1) p).mpr ⟨v, by omega, ?_, hidv⟩
          have : p - i = (p - (i + 1)) + 1 := by omega
          rw [this] at hget
          simpa using hget
    · rw [if_neg hid]
      rw [mem_keyPositions_iff k rest (i + 1) p]
      constructor
      · rintro ⟨v, hle, hget, hidv⟩
        refine ⟨v, by omega, ?_, hidv⟩
        have : p - i = (p - (i + 1)) + 1 := by omega
        rw [this]
        simpa using hget
      · rintro ⟨v, hle, hget, hidv⟩
        have hne : p ≠ i := by
          intro he
          subst he
          simp at hget
          exact hid (hget ▸ hidv)
        refine ⟨v, by omega, ?_, hidv⟩
        have : p - i = (p - (i + 1)) + 1 := by omega
        rw [this] at hget
        simpa using hget

/-! ### invariant preservation -/

theorem inv_matched (st : SyncSt) (key : String) (j : Nat) (q : List Nat)
    (f : Song → Song) (c : List (String × String))
    (h : alookup st.remaining key = some (j :: q)) (inv : Inv st) :
    Inv ⟨modifyIdx st.songs j f, popHead st.remaining key, c⟩ := by
  obtain ⟨L1, L2, h1, h2, _⟩ := alookup_decomp st.remaining key (j :: q) h
  have hnodup := inv.idx_nodup
  rw [h1] at hnodup
  have hsub : (L1 ++ q ++ L2).Sublist (L1 ++ (j :: q) ++ L2) :=
    ((List.Sublist.refl L1).append (List.sublist_cons_self j q)).append (List.Sublist.refl L2)
  have hjq : j ∉ q := by
    rcases List.nodup_append.mp hnodup with ⟨hn1, _, _⟩
    rcases List.nodup_append.mp hn1 with ⟨_, hn2, _⟩
    exact (List.nodup_cons.mp hn2).1
  have hjL1 : j ∉ L1 := by
    rcases List.nodup_append.mp hnodup with ⟨hn1, _, _⟩
    rcases List.nodup_append.mp hn1 with ⟨_, _, hd⟩
    exact fun hc => hd hc (List.mem_cons_self j q)
  have hjL2 : j ∉ L2 := by
    rcases List.nodup_append.mp hnodup with ⟨_, _, hd⟩
    exact fun hc => hd (List.mem_append_right L1 (List.mem_cons_self j q)) hc
  have hmem_old : ∀ j', j' ∈ joinedQ (popHead st.remaining key) → j' ∈ joinedQ st.remaining := by
    intro j' hj'
    rw [h2] at hj'
    rw [h1]
    simp only [List.append_assoc, List.mem_append] at hj' ⊢
    rcases hj' with h' | h' | h'
    · exact Or.inl h'
    · exact Or.inr (Or.inl (List.mem_cons_of_mem j h'))
    · exact Or.inr (Or.inr h')
  have hne_j : ∀ j', j' ∈ joinedQ (popHead st.remaining key) → j' ≠ j := by
    intro j' hj' he
    subst he
    rw [h2] at hj'
    simp only [List.append_assoc, List.mem_append] at hj'
    rcases hj' with h' | h' | h'
    · exact hjL1 h'
    · exact hjq h'
    · exact hjL2 h'
  refine ⟨?_, ?_, ?_, ?_⟩
  · simpa [map_fst_popHead] using inv.keys_nodup
  · rw [h2]
    exact (hnodup.sublist hsub : _)
  · intro j' hj'
    rw [modifyIdx_length]
    exact inv.bounded j' (hmem_old j' hj')
  · intro j' hj'
    rw [modifyIdx_getD_ne _ _ _ _ _ (hne_j j' hj')]
    exact inv.empties j' (hmem_old j' hj')

theorem inv_newsong (st : SyncSt) (s : Song) (c : List (String × String)) (inv : Inv st) :
    Inv ⟨st.songs ++ [s], st.remaining, c⟩ := by
  refine ⟨inv.keys_nodup, inv.idx_nodup, ?_, ?_⟩
  · intro j hj
    have := inv.bounded j hj
    simp only [List.length_append, List.length_cons, List.length_nil]
    omega
  · intro j hj
    rw [getD_append_left _ _ _ _ (inv.bounded j hj)]
    exact inv.empties j hj

theorem popHead_head_gone (rem : List (String × List Nat)) (key : String) (j : Nat)
    (q : List Nat) (h : alookup rem key = some (j :: q)) (hnod : (joinedQ rem).Nodup) :
    j ∉ q ∧ (∀ k, j ∉ queueOf (popHead rem key) k) ∧
      (∀ k, k ≠ key → ∀ j' ∈ queueOf rem k, j' ≠ j) := by
  obtain ⟨L1, L2, h1, h2, h3⟩ := alookup_decomp rem key (j :: q) h
  rw [h1] at hnod
  have hjq : j ∉ q := by
    rcases List.nodup_append.mp hnod with ⟨hn1, _, _⟩
    rcases List.nodup_append.mp hn1 with ⟨_, hn2, _⟩
    exact (List.nodup_cons.mp hn2).1
  have hjL1 : j ∉ L1 := by
    rcases List.nodup_append.mp hnod with ⟨hn1, _, _⟩
    rcases List.nodup_append.mp hn1 with ⟨_, _, hd⟩
    exact fun hc => hd hc (List.mem_cons_self j q)
  have hjL2 : j ∉ L2 := by
    rcases List.nodup_append.mp hnod with ⟨_, _, hd⟩
    exact fun hc => hd (List.mem_append_right L1 (List.mem_cons_self j q)) hc
  have hL12 : ∀ j', j' ∈ L1 ++ L2 → j' ≠ j := by
    intro j' hj' he
    subst he
    rcases List.mem_append.mp hj' with h' | h'
    · exact hjL1 h'
    · exact hjL2 h'
  refine ⟨hjq, ?_, ?_⟩
  · intro k
    by_cases hk : k = key
    · subst hk
      have := alookup_popHead_self rem k (j :: q) h
      simp [queueOf, this, hjq]
    · rw [queueOf, alookup_popHead_other rem key k hk]
      intro hc
      exact hL12 j (h3 k hk hc) rfl
  · intro k hk j' hj' he
    subst he
    exact hL12 j' (h3 k hk hj') rfl

theorem keyPositions_cons_some_of_id {info : VideoInfo} {key : String}
    (hid : info.id = some key) (rest : List (Option VideoInfo)) (k : String) (i : Nat) :
    keyPositions k (some info :: rest) i =
      if k = key then i :: keyPositions k rest (i + 1) else keyPositions k rest (i + 1) := by
  rw [keyPositions_cons_some, hid]
  by_cases hk : k = key
  · subst hk
    simp
  · have : ¬ (some key = some k) := by
      simpa using fun hc : key = k => hk hc.symm
    simp [this, hk]

/-- full characterization of one successful run of the entry loop started
at index `i` in state `st`: what happened to every song that was in a
queue, to the untouched songs, to the queues themselves, and what the
appended new songs look like. -/
structure LoopDescr (entries : List (Option VideoInfo)) (i : Nat) (ra : Bool)
    (st st' : SyncSt) : Prop where
  matched : ∀ k t j, (queueOf st.remaining k).get? t = some j →
      t < (keyPositions k entries i).length →
      st'.songs.getD j emptySong =
        { st.songs.getD j emptySong with
            actions := (st.songs.getD j emptySong).actions ++
              matchedActions (st.songs.getD j emptySong)
                ((keyPositions k entries i).getD t 0) ra }
  unmatched : ∀ k t j, (queueOf st.remaining k).get? t = some j →
      (keyPositions k entries i).length ≤ t →
      st'.songs.getD j emptySong = st.songs.getD j emptySong
  untouched : ∀ j, j < st.songs.length → (∀ k, j ∉ queueOf st.remaining k) →
      st'.songs.getD j emptySong = st.songs.getD j emptySong
  queues : ∀ k, queueOf st'.remaining k =
      (queueOf st.remaining k).drop (keyPositions k entries i).length
  keys : st'.remaining.map Prod.fst = st.remaining.map Prod.fst
  len_le : st.songs.length ≤ st'.songs.length
  created : ∀ s ∈ st'.songs.drop st.songs.length, ∃ key file a t p,
      s = { emptySong with actions := [.Download key file, .Normalize,
            .UpdateArtistMetadata a, .UpdateTitleMetadata t,
            .UpdateIndexMetadata p, .UpdateVideoIdMetadata key] }
  len_eq : (∀ k, (keyPositions k entries i).length ≤ (queueOf st.remaining k).length) →
      st'.songs.length = st.songs.length
  inv' : Inv st'

theorem loopDescr_matched_step (fetch : String → Option String) (dir : String) (ra : Bool)
    (rest : List (Option VideoInfo)) (i : Nat) (st st' : SyncSt) (info : VideoInfo)
    (key : String) (j : Nat) (q : List Nat) (inv : Inv st)
    (ih : ∀ (i : Nat) (st st' : SyncSt), Inv st →
      syncLoop fetch dir ra i rest st = .ok st' → LoopDescr rest i ra st st')
    (hid : info.id = some key)
    (halo : alookup st.remaining key = some (j :: q))
    (h : syncLoop fetch dir ra i (some info :: rest) st = .ok st') :
    LoopDescr (some info :: rest) i ra st st' := by
  replace h : syncLoop fetch dir ra (i + 1) rest
      ⟨modifyIdx st.songs j
        (fun s => { s with actions := s.actions ++ matchedActions s i ra }),
       popHead st.remaining key, st.cache⟩ = .ok st' := by
    simpa only [syncLoop, hid, halo] using h
  set st1 : SyncSt :=
    ⟨modifyIdx st.songs j
      (fun s => { s with actions := s.actions ++ matchedActions s i ra }),
     popHead st.remaining key, st.cache⟩ with hst1
  have hqOf : queueOf st.remaining key = j :: q := by simp [queueOf, halo]
  have hjmem : j ∈ joinedQ st.remaining :=
    queueOf_subset_joinedQ st.remaining key (by rw [hqOf]; exact List.mem_cons_self j q)
  have hjlen : j < st.songs.length := inv.bounded j hjmem
  have inv1 : Inv st1 := inv_matched st key j q _ st.cache halo inv
  obtain ⟨hjq, hnotin1, hother⟩ := popHead_head_gone st.remaining key j q halo inv.idx_nodup
  have hq1self : queueOf st1.remaining key = q := by
    simp [hst1, queueOf, alookup_popHead_self st.remaining key (j :: q) halo]
  have hq1other : ∀ k, k ≠ key → queueOf st1.remaining k = queueOf st.remaining k := by
    intro k hk
    simp [hst1, queueOf, alookup_popHead_other st.remaining key k hk]
  have hlen1 : st1.songs.length = st.songs.length := modifyIdx_length st.songs j _
  have hsongs_at_j : st1.songs.getD j emptySong =
      { st.songs.getD j emptySong with
          actions := (st.songs.getD j emptySong).actions ++
            matchedActions (st.songs.getD j emptySong) i ra } :=
    modifyIdx_getD_self st.songs j _ emptySong hjlen
  have hsongs_ne : ∀ j', j' ≠ j →
      st1.songs.getD j' emptySong = st.songs.getD j' emptySong := by
    intro j' hne
    exact modifyIdx_getD_ne st.songs j _ emptySong j' hne
  have D := ih (i + 1) st1 st' inv1 h
  have hKP := fun k => keyPositions_cons_some_of_id hid rest k i
  refine ⟨?_, ?_, ?_, ?_, ?_, ?_, ?_, ?_, D.inv'⟩
  · -- matched
    intro k t j' hget ht
    rw [hKP k] at ht ⊢
    by_cases hk : k = key
    · subst hk
      rw [if_pos rfl] at ht ⊢
      rw [hqOf] at hget
      cases t with
      | zero =>
        have hj' : j' = j := by simpa using hget.symm
        subst hj'
        have huntouched := D.untouched j' (hlen1 ▸ hjlen) hnotin1
        rw [huntouched, hsongs_at_j]
        rfl
      | succ t' =>
        have hget' : q.get? t' = some j' := by simpa using hget
        have hj'ne : j' ≠ j := fun he => hjq (he ▸ mem_of_get? hget')
        have ht' : t' < (keyPositions k rest (i + 1)).length := by
          simpa using Nat.lt_of_succ_lt_succ ht
        have hD := D.matched k t' j' (by rw [hq1self]; exact hget') ht'
        rw [hsongs_ne j' hj'ne] at hD
        rw [hD]
        rfl
    · rw [if_neg hk] at ht ⊢
      have hj'ne : j' ≠ j := hother k hk j' (mem_of_get? hget)
      have hD := D.matched k t j' (by rw [hq1other k hk]; exact hget) ht
      rw [hsongs_ne j' hj'ne] at hD
      exact hD
  · -- unmatched
    intro k t j' hget ht
    rw [hKP k] at ht
    by_cases hk : k = key
    · subst hk
      rw [if_pos rfl] at ht
      rw [hqOf] at hget
      cases t with
      | zero => simp at ht
      | succ t' =>
        have hget' : q.get? t' = some j' := by simpa using hget
        have hj'ne : j' ≠ j := fun he => hjq (he ▸ mem_of_get? hget')
        have ht' : (keyPositions k rest (i + 1)).length ≤ t' := by
          simpa using Nat.le_of_succ_le_succ ht
        have hD := D.unmatched k t' j' (by rw [hq1self]; exact hget') ht'
        rw [hsongs_ne j' hj'ne] at hD
        exact hD
    · rw [if_neg hk] at ht
      have hj'ne : j' ≠ j := hother k hk j' (mem_of_get? hget)
      have hD := D.unmatched k t j' (by rw [hq1other k hk]; exact hget) ht
      rw [hsongs_ne j' hj'ne] at hD
      exact hD
  · -- untouched
    intro j0 hj0 hnot
    have hj0ne : j0 ≠ j := by
      intro he
      exact hnot key (by rw [hqOf, he]; exact List.mem_cons_self j q)
    have hnot1 : ∀ k, j0 ∉ queueOf st1.remaining k := by
      intro k
      by_cases hk : k = key
      · subst hk
        rw [hq1self]
        intro hc
        exact hnot k (by rw [hqOf]; exact List.mem_cons_of_mem j hc)
      · rw [hq1other k hk]
        exact hnot k
    have hD := D.untouched j0 (hlen1 ▸ hj0) hnot1
    rw [hsongs_ne j0 hj0ne] at hD
    exact hD
  · -- queues
    intro k
    rw [hKP k]
    by_cases hk : k = key
    · subst hk
      rw [if_pos rfl, hqOf]
      have hD := D.queues k
      rw [hq1self] at hD
      simpa using hD
    · rw [if_neg hk]
      rw [← hq1other k hk]
      exact D.queues k
  · -- keys
    exact D.keys.trans (map_fst_popHead st.remaining key)
  · -- len_le
    exact hlen1 ▸ D.len_le
  · -- created
    intro s hs
    exact D.created s (by rw [hst1]; simpa [modifyIdx_length] using hs)
  · -- len_eq
    intro hle
    have hle1 : ∀ k, (keyPositions k rest (i + 1)).length ≤ (queueOf st1.remaining k).length := by
      intro k
      by_cases hk : k = key
      · subst hk
        rw [hq1self]
        have := hle k
        rw [hKP k, if_pos rfl, hqOf] at this
        simpa using this
      · rw [hq1other k hk]
        have := hle k
        rw [hKP k, if_neg hk] at this
        exact this
    rw [← hlen1]
    exact D.len_eq hle1

theorem loopDescr_new_step (fetch : String → Option String) (dir : String) (ra : Bool)
    (rest : List (Option VideoInfo)) (i : Nat) (st st' : SyncSt) (info : VideoInfo)
    (key : String) (vt : String) (cache' : List (String × String)) (inv : Inv st)
    (ih : ∀ (i : Nat) (st st' : SyncSt), Inv st →
      syncLoop fetch dir ra i rest st = .ok st' → LoopDescr rest i ra st st')
    (hid : info.id = some key)
    (hq0 : queueOf st.remaining key = [])
    (hres : get_video_title fetch st.cache key info.title = .ok (vt, cache'))
    (h : syncLoop fetch dir ra i (some info :: rest) st = .ok st') :
    LoopDescr (some info :: rest) i ra st st' := by
  have hcases : alookup st.remaining key = none ∨ alookup st.remaining key = some [] := by
    rcases halo : alookup st.remaining key with _ | q0
    · exact Or.inl rfl
    · right
      have : q0 = [] := by simpa [queueOf, halo] using hq0
      rw [this]
  set ns : Song := newSong dir key (parse_video_title vt).1 (parse_video_title vt).2 i with hns
  replace h : syncLoop fetch dir ra (i + 1) rest
      ⟨st.songs ++ [ns], st.remaining, cache'⟩ = .ok st' := by
    rcases hcases with halo | halo
    · simpa only [syncLoop, hid, halo, hres] using h
    · simpa only [syncLoop, hid, halo, hres] using h
  set st1 : SyncSt := ⟨st.songs ++ [ns], st.remaining, cache'⟩ with hst1
  have inv1 : Inv st1 := inv_newsong st ns cache' inv
  have hlen1 : st1.songs.length = st.songs.length + 1 := by
    simp [hst1]
  have hsongs_ne : ∀ j', j' < st.songs.length →
      st1.songs.getD j' emptySong = st.songs.getD j' emptySong := by
    intro j' hj'
    exact getD_append_left st.songs [ns] j' emptySong hj'
  have hqsame : ∀ k, queueOf st1.remaining k = queueOf st.remaining k := fun _ => rfl
  have hbound : ∀ k j', j' ∈ queueOf st.remaining k → j' < st.songs.length := by
    intro k j' hj'
    exact inv.bounded j' (queueOf_subset_joinedQ st.remaining k hj')
  have D := ih (i + 1) st1 st' inv1 h
  have hKP := fun k => keyPositions_cons_some_of_id hid rest k i
  refine ⟨?_, ?_, ?_, ?_, D.keys, ?_, ?_, ?_, D.inv'⟩
  · -- matched
    intro k t j' hget ht
    rw [hKP k] at ht ⊢
    by_cases hk : k = key
    · subst hk
      rw [hq0] at hget
      simp at hget
    · rw [if_neg hk] at ht ⊢
      have hlt : j' < st.songs.length := hbound k j' (mem_of_get? hget)
      have hD := D.matched k t j' (by rw [hqsame]; exact hget) ht
      rw [hsongs_ne j' hlt] at hD
      exact hD
  · -- unmatched
    intro k t j' hget ht
    by_cases hk : k = key
    · subst hk
      rw [hq0] at hget
      simp at hget
    · have hlt : j' < st.songs.length := hbound k j' (mem_of_get? hget)
      rw [hKP k, if_neg hk] at ht
      have hD := D.unmatched k t j' (by rw [hqsame]; exact hget) ht
      rw [hsongs_ne j' hlt] at hD
      exact hD
  · -- untouched
    intro j0 hj0 hnot
    have hD := D.untouched j0 (by omega) (fun k => by rw [hqsame]; exact hnot k)
    rw [hsongs_ne j0 hj0] at hD
    exact hD
  · -- queues
    intro k
    rw [hKP k]
    by_cases hk : k = key
    · subst hk
      rw [if_pos rfl, hq0]
      have hD := D.queues k
      rw [hqsame, hq0] at hD
      simpa using hD
    · rw [if_neg hk]
      rw [← hqsame k]
      exact D.queues k
  · -- len_le
    have hD := D.len_le
    omega
  · -- created
    intro s hs
    have hlt : st.songs.length < st'.songs.length := by
      have := D.len_le
      omega
    rw [drop_eq_getD_cons st'.songs st.songs.length emptySong hlt] at hs
    rcases List.mem_cons.mp hs with hs | hs
    · subst hs
      have hnotq : ∀ k, st.songs.length ∉ queueOf st1.remaining k := by
        intro k hc
        rw [hqsame] at hc
        exact absurd (hbound k _ hc) (by omega)
      have hD := D.untouched st.songs.length (by omega) hnotq
      rw [hD]
      have : st1.songs.getD st.songs.length emptySong = ns :=
        getD_append_length st.songs ns st.songs.length emptySong rfl
      rw [this, hns, newSong]
      exact ⟨key, dir ++ "/" ++ make_filename (parse_video_title vt).1 (parse_video_title vt).2 (i : Int),
        (parse_video_title vt).1, (parse_video_title vt).2, (i : Int), rfl⟩
    · have : s ∈ st'.songs.drop st1.songs.length := by
        rw [hlen1]
        exact hs
      exact D.created s this
  · -- len_eq
    intro hle
    exfalso
    have := hle key
    rw [hKP key, if_pos rfl, hq0] at this
    simp at this

theorem syncLoop_ok_spec (fetch : String → Option String) (dir : String) (ra : Bool) :
    ∀ (entries : List (Option VideoInfo)) (i : Nat) (st st' : SyncSt),
    Inv st → syncLoop fetch dir ra i entries st = .ok st' →
    LoopDescr entries i ra st st' := by
  intro entries
  induction entries with
  | nil =>
    intro i st st' inv h
    replace h : st = st' := by
      simpa [syncLoop] using h
    subst h
    refine ⟨?_, ?_, ?_, ?_, rfl, le_refl _, ?_, ?_, inv⟩
    · intro k t j _ ht
      simp [keyPositions] at ht
    · intro k t j _ _
      rfl
    · intro j _ _
      rfl
    · intro k
      simp [keyPositions]
    · intro s hs
      simp [List.drop_length] at hs
    · intro _
      rfl
  | cons e rest ih =>
    intro i st st' inv h
    cases e with
    | none =>
      replace h : syncLoop fetch dir ra (i + 1) rest st = .ok st' := h
      have D := ih (i + 1) st st' inv h
      exact ⟨D.matched, D.unmatched, D.untouched, D.queues, D.keys, D.len_le,
        D.created, D.len_eq, D.inv'⟩
    | some info =>
      rcases hid : info.id with _ | key
      · replace h : (Except.error (SyncError.noId i, st) :
            Except (SyncError × SyncSt) SyncSt) = .ok st' := by
          simpa only [syncLoop, hid] using h
        simp at h
      · rcases halo : alookup st.remaining key with _ | (_ | ⟨j, q⟩)
        · -- key absent: creation branch
          have hq0 : queueOf st.remaining key = [] := by simp [queueOf, halo]
          rcases hres : get_video_title fetch st.cache key info.title with err | pr
          · replace h : (Except.error (err, st) :
                Except (SyncError × SyncSt) SyncSt) = .ok st' := by
              simpa only [syncLoop, hid, halo, hres] using h
            simp at h
          · obtain ⟨vt, cache'⟩ := pr
            exact loopDescr_new_step fetch dir ra rest i st st' info key vt cache' inv ih
              hid hq0 hres h
        · -- key present with an exhausted queue: creation branch
          have hq0 : queueOf st.remaining key = [] := by simp [queueOf, halo]
          rcases hres : get_video_title fetch st.cache key info.title with err | pr
          · replace h : (Except.error (err, st) :
                Except (SyncError × SyncSt) SyncSt) = .ok st' := by
              simpa only [syncLoop, hid, halo, hres] using h
            simp at h
          · obtain ⟨vt, cache'⟩ := pr
            exact loopDescr_new_step fetch dir ra rest i st st' info key vt cache' inv ih
              hid hq0 hres h
        · -- match branch
          exact loopDescr_matched_step fetch dir ra rest i st st' info key j q inv ih
            hid halo h

/-! ### buildRemaining characterization -/

theorem alookup_addRemaining_self : ∀ (rem : List (String × List Nat)) (key : String) (j : Nat),
    alookup (addRemaining rem key j) key = some ((alookup rem key).getD [] ++ [j])
  | [], key, j => by simp [addRemaining, alookup]
  | (k, q) :: rest, key, j => by
    by_cases hk : k = key
    · simp [addRemaining, alookup, hk]
    · simp only [addRemaining, if_neg hk, alookup]
      exact alookup_addRemaining_self rest key j

theorem alookup_addRemaining_other : ∀ (rem : List (String × List Nat)) (key k : String)
    (j : Nat), k ≠ key → alookup (addRemaining rem key j) k = alookup rem k
  | [], key, k, j, h => by
    have hne : ¬ key = k := fun hc => h hc.symm
    simp [addRemaining, alookup, hne]
  | (k0, q) :: rest, key, k, j, h => by
    by_cases hk : k0 = key
    · subst hk
      have hne : ¬ k0 = k := fun hc => h hc.symm
      simp [addRemaining, alookup, hne]
    · simp only [addRemaining, if_neg hk, alookup]
      by_cases hk2 : k0 = k
      · simp [hk2]
      · rw [if_neg hk2, if_neg hk2]
        exact alookup_addRemaining_other rest key k j h

theorem mem_joined_addRemaining : ∀ (rem : List (String × List Nat)) (key : String)
    (j j' : Nat), j' ∈ joinedQ (addRemaining rem key j) ↔ j' ∈ joinedQ rem ∨ j' = j
  | [], key, j, j' => by simp [addRemaining, joinedQ]
  | (k, q) :: rest, key, j, j' => by
    by_cases hk : k = key
    · simp [addRemaining, hk, joinedQ, List.mem_append, or_assoc, or_comm, or_left_comm]
    · simp only [addRemaining, if_neg hk, joinedQ, List.map_cons, List.flatten_cons,
        List.mem_append]
      have := mem_joined_addRemaining rest key j j'
      simp only [joinedQ] at this
      rw [this]
      tauto

theorem nodup_joined_addRemaining : ∀ (rem : List (String × List Nat)) (key : String)
    (j : Nat), (joinedQ rem).Nodup → j ∉ joinedQ rem →
    (joinedQ (addRemaining rem key j)).Nodup
  | [], key, j, _, _ => by simp [addRemaining, joinedQ]
  | (k, q) :: rest, key, j, hnod, hj => by
    simp only [joinedQ, List.map_cons, List.flatten_cons] at hnod hj
    rcases List.nodup_append.mp hnod with ⟨hq, hrest, hdisj⟩
    have hjq : j ∉ q := fun hc => hj (List.mem_append_left _ hc)
    have hjrest : j ∉ (rest.map Prod.snd).flatten := fun hc => hj (List.mem_append_right _ hc)
    by_cases hk : k = key
    · simp only [addRemaining, if_pos hk, joinedQ, List.map_cons, List.flatten_cons]
      rw [List.nodup_append]
      refine ⟨?_, hrest, ?_⟩
      · rw [List.nodup_append]
        exact ⟨hq, List.nodup_singleton j, by simpa using hjq⟩
      · intro a ha hrest2
        rcases List.mem_append.mp ha with ha | ha
        · exact hdisj ha hrest2
        · simp at ha
          subst ha
          exact hjrest hrest2
    · simp only [addRemaining, if_neg hk, joinedQ, List.map_cons, List.flatten_cons]
      rw [List.nodup_append]
      refine ⟨hq, nodup_joined_addRemaining rest key j hrest hjrest, ?_⟩
      intro a ha ha2
      have := (mem_joined_addRemaining rest key j a).mp (by simpa [joinedQ] using ha2)
      rcases this with h' | h'
      · exact hdisj ha (by simpa [joinedQ] using h')
      · subst h'
        exact hjq ha

theorem keys_addRemaining : ∀ (rem : List (String × List Nat)) (key : String) (j : Nat),
    (addRemaining rem key j).map Prod.fst =
      if key ∈ rem.map Prod.fst then rem.map Prod.fst else rem.map Prod.fst ++ [key]
  | [], key, j => by simp [addRemaining]
  | (k, q) :: rest, key, j => by
    by_cases hk : k = key
    · simp [addRemaining, hk]
    · have hne : ¬ key = k := fun hc => hk hc.symm
      simp only [addRemaining, if_neg hk, List.map_cons, List.mem_cons]
      rw [keys_addRemaining rest key j]
      by_cases hmem : key ∈ rest.map Prod.fst
      · simp [hmem, hne]
      · simp [hmem, hne]

theorem keys_nodup_addRemaining (rem : List (String × List Nat)) (key : String) (j : Nat)
    (h : (rem.map Prod.fst).Nodup) : ((addRemaining rem key j).map Prod.fst).Nodup := by
  rw [keys_addRemaining]
  by_cases hmem : key ∈ rem.map Prod.fst
  · simpa [hmem] using h
  · rw [if_neg hmem]
    rw [List.nodup_append]
    refine ⟨h, List.nodup_singleton key, ?_⟩
    intro a ha hb
    simp at hb
    subst hb
    exact hmem ha

theorem buildAux_inv : ∀ (songs : List Song) (j0 : Nat) (rem : List (String × List Nat)),
    (rem.map Prod.fst).Nodup → (joinedQ rem).Nodup → (∀ j' ∈ joinedQ rem, j' < j0) →
    ((buildRemainingAux songs j0 rem).map Prod.fst).Nodup ∧
      (joinedQ (buildRemainingAux songs j0 rem)).Nodup ∧
      (∀ j' ∈ joinedQ (buildRemainingAux songs j0 rem), j' < j0 + songs.length)
  | [], j0, rem, hkeys, hjoin, hbound => by
    refine ⟨hkeys, hjoin, ?_⟩
    intro j' hj'
    have := hbound j' hj'
    simpa using Nat.lt_of_lt_of_le this (by omega)
  | s :: rest, j0, rem, hkeys, hjoin, hbound => by
    match hs : s.video_id with
    | some k =>
      have hj0 : j0 ∉ joinedQ rem := fun hc => absurd (hbound j0 hc) (by omega)
      have h1 := keys_nodup_addRemaining rem k j0 hkeys
      have h2 := nodup_joined_addRemaining rem k j0 hjoin hj0
      have h3 : ∀ j' ∈ joinedQ (addRemaining rem k j0), j' < j0 + 1 := by
        intro j' hj'
        rcases (mem_joined_addRemaining rem k j0 j').mp hj' with h' | h'
        · have := hbound j' h'
          omega
        · omega
      have := buildAux_inv rest (j0 + 1) (addRemaining rem k j0) h1 h2 h3
      simpa [buildRemainingAux, hs, Nat.add_assoc, Nat.add_comm 1 rest.length] using this
    | none =>
      have h3 : ∀ j' ∈ joinedQ rem, j' < j0 + 1 := fun j' hj' => by
        have := hbound j' hj'
        omega
      have := buildAux_inv rest (j0 + 1) rem hkeys hjoin h3
      simpa [buildRemainingAux, hs, Nat.add_assoc, Nat.add_comm 1 rest.length] using this

theorem getD_mem {α : Type} : ∀ (l : List α) (j : Nat) (d : α), j < l.length → l.getD j d ∈ l
  | [], j, d, h => by simp at h
  | a :: rest, 0, d, _ => List.mem_cons_self a rest
  | a :: rest, j + 1, d, h =>
    List.mem_cons_of_mem a (getD_mem rest j d (by simpa using h))

/-- the state built by `Playlist.__post_init__` satisfies the loop
invariant whenever the loaded songs carry empty action queues (which the
loader guarantees: `Song.from_file` never populates `actions`). -/
theorem inv_init (songs0 : List Song) (cache0 : List (String × String))
    (hacts : ∀ s ∈ songs0, s.actions = []) :
    Inv ⟨songs0, buildRemaining songs0, cache0⟩ := by
  obtain ⟨h1, h2, h3⟩ := buildAux_inv songs0 0 [] (by simp) (by simp [joinedQ]) (by simp [joinedQ])
  refine ⟨h1, h2, ?_, ?_⟩
  · intro j hj
    simpa using h3 j hj
  · intro j hj
    have hlt : j < songs0.length := by simpa using h3 j hj
    exact hacts _ (getD_mem songs0 j emptySong hlt)

theorem queueOf_buildAux : ∀ (songs : List Song) (j0 : Nat)
    (rem : List (String × List Nat)) (k : String),
    queueOf (buildRemainingAux songs j0 rem) k = queueOf rem k ++ indicesWithKey songs j0 k
  | [], j0, rem, k => by simp [buildRemainingAux, indicesWithKey]
  | s :: rest, j0, rem, k => by
    match hs : s.video_id with
    | some k0 =>
      rw [show buildRemainingAux (s :: rest) j0 rem =
        buildRemainingAux rest (j0 + 1) (addRemaining rem k0 j0) by simp [buildRemainingAux, hs]]
      rw [queueOf_buildAux rest (j0 + 1) (addRemaining rem k0 j0) k]
      by_cases hk : k = k0
      · subst hk
        rw [show queueOf (addRemaining rem k j0) k = queueOf rem k ++ [j0] by
          simp [queueOf, alookup_addRemaining_self]]
        simp [indicesWithKey, hs]
      · rw [show queueOf (addRemaining rem k0 j0) k = queueOf rem k by
          simp [queueOf, alookup_addRemaining_other rem k0 k j0 hk]]
        have : ¬ s.video_id = some k := by
          rw [hs]
          simpa using fun hc : k0 = k => hk hc.symm
        simp [indicesWithKey, this]
    | none =>
      rw [show buildRemainingAux (s :: rest) j0 rem =
        buildRemainingAux rest (j0 + 1) rem by simp [buildRemainingAux, hs]]
      rw [queueOf_buildAux rest (j0 + 1) rem k]
      simp [indicesWithKey, hs]

/-- the queue `Playlist.__post_init__` builds for a video id is exactly the
load-order list of the songs carrying that id. -/
theorem queueOf_buildRemaining (songs : List Song) (k : String) :
    queueOf (buildRemaining songs) k = indicesWithKey songs 0 k := by
  rw [buildRemaining, queueOf_buildAux songs 0 [] k]
  simp [queueOf, alookup]

theorem mem_indicesWithKey (k : String) : ∀ (songs : List Song) (j0 j : Nat),
    j ∈ indicesWithKey songs j0 k ↔
      ∃ s, j0 ≤ j ∧ songs.get? (j - j0) = some s ∧ s.video_id = some k
  | [], j0, j => by simp [indicesWithKey]
  | s :: rest, j0, j => by
    by_cases hs : s.video_id = some k
    · simp only [indicesWithKey, if_pos hs, List.mem_append, List.mem_singleton]
      rw [mem_indicesWithKey k rest (j0 + 1) j]
      constructor
      · rintro (he | ⟨s', hle, hget, hid⟩)
        · subst he
          exact ⟨s, le_refl _, by simp, hs⟩
        · refine ⟨s', by omega, ?_, hid⟩
          have : j - j0 = (j - (j0 + 1)) + 1 := by omega
          rw [this]
          simpa using hget
      · rintro ⟨s', hle, hget, hid⟩
        by_cases he : j = j0
        · exact Or.inl he
        · refine Or.inr ⟨s', by omega, ?_, hid⟩
          have : j - j0 = (j - (j0 + 1)) + 1 := by omega
          rw [this] at hget
          simpa using hget
    · simp only [indicesWithKey, if_neg hs, List.nil_append]
      rw [mem_indicesWithKey k rest (j0 + 1) j]
      constructor
      · rintro ⟨s', hle, hget, hid⟩
        refine ⟨s', by omega, ?_, hid⟩
        have : j - j0 = (j - (j0 + 1)) + 1 := by omega
        rw [this]
        simpa using hget
      · rintro ⟨s', hle, hget, hid⟩
        have hne : j ≠ j0 := by
          intro he
          subst he
          simp at hget
          exact hs (hget ▸ hid)
        refine ⟨s', by omega, ?_, hid⟩
        have : j - j0 = (j - (j0 + 1)) + 1 := by omega
        rw [this] at hget
        simpa using hget

theorem le_of_mem_indicesWithKey (k : String) : ∀ (songs : List Song) (j0 j : Nat),
    j ∈ indicesWithKey songs j0 k → j0 ≤ j := by
  intro songs j0 j h
  obtain ⟨s, hle, _, _⟩ := (mem_indicesWithKey k songs j0 j).mp h
  exact hle

theorem indicesWithKey_pairwise (k : String) : ∀ (songs : List Song) (j0 : Nat),
    (indicesWithKey songs j0 k).Pairwise (· < ·)
  | [], j0 => by simp [indicesWithKey]
  | s :: rest, j0 => by
    by_cases hs : s.video_id = some k
    · simp only [indicesWithKey, if_pos hs, List.singleton_append]
      refine List.Pairwise.cons ?_ (indicesWithKey_pairwise k rest (j0 + 1))
      intro j hj
      have := le_of_mem_indicesWithKey k rest (j0 + 1) j hj
      omega
    · simpa [indicesWithKey, hs] using indicesWithKey_pairwise k rest (j0 + 1)

/-! ### totality of the loop when every entry finds a queued song -/

theorem syncLoop_total (fetch : String → Option String) (dir : String) (ra : Bool) :
    ∀ (entries : List (Option VideoInfo)) (i : Nat) (st : SyncSt), Inv st →
    (∀ e ∈ entries, ∀ v : VideoInfo, e = some v → v.id ≠ none) →
    (∀ k, (keyPositions k entries i).length ≤ (queueOf st.remaining k).length) →
    ∃ st', syncLoop fetch dir ra i entries st = .ok st'
  | [], i, st, _, _, _ => ⟨st, rfl⟩
  | none :: rest, i, st, inv, hvalid, hle => by
    obtain ⟨st', h⟩ := syncLoop_total fetch dir ra rest (i + 1) st inv
      (fun e he v hv => hvalid e (List.mem_cons_of_mem _ he) v hv)
      (fun k => hle k)
    exact ⟨st', h⟩
  | some info :: rest, i, st, inv, hvalid, hle => by
    rcases hid : info.id with _ | key
    · exact absurd hid (hvalid (some info) (List.mem_cons_self _ _) info rfl)
    · have hKP := fun k => keyPositions_cons_some_of_id hid rest k i
      have hlen : 1 ≤ (queueOf st.remaining key).length := by
        have := hle key
        rw [hKP key, if_pos rfl] at this
        simp at this
        omega
      rcases halo : alookup st.remaining key with _ | (_ | ⟨j, q⟩)
      · rw [show queueOf st.remaining key = [] from by simp [queueOf, halo]] at hlen
        simp at hlen
      · rw [show queueOf st.remaining key = [] from by simp [queueOf, halo]] at hlen
        simp at hlen
      · set st1 : SyncSt :=
          ⟨modifyIdx st.songs j
            (fun s => { s with actions := s.actions ++ matchedActions s i ra }),
           popHead st.remaining key, st.cache⟩ with hst1
        have inv1 : Inv st1 := inv_matched st key j q _ st.cache halo inv
        have hqOf : queueOf st.remaining key = j :: q := by simp [queueOf, halo]
        have hq1self : queueOf st1.remaining key = q := by
          simp [hst1, queueOf, alookup_popHead_self st.remaining key (j :: q) halo]
        have hq1other : ∀ k, k ≠ key → queueOf st1.remaining k = queueOf st.remaining k := by
          intro k hk
          simp [hst1, queueOf, alookup_popHead_other st.remaining key k hk]
        have hle1 : ∀ k, (keyPositions k rest (i + 1)).length ≤ (queueOf st1.remaining k).length := by
          intro k
          by_cases hk : k = key
          · subst hk
            rw [hq1self]
            have := hle k
            rw [hKP k, if_pos rfl, hqOf] at this
            simpa using this
          · rw [hq1other k hk]
            have := hle k
            rw [hKP k, if_neg hk] at this
            exact this
        obtain ⟨st', h⟩ := syncLoop_total fetch dir ra rest (i + 1) st1 inv1
          (fun e he v hv => hvalid e (List.mem_cons_of_mem _ he) v hv) hle1
        refine ⟨st', ?_⟩
        simpa only [syncLoop, hid, halo] using h

/-! ### delete-pass lemmas -/

theorem appendDeletesQ_length : ∀ (q : List Nat) (songs : List Song),
    (appendDeletesQ songs q).length = songs.length
  | [], songs => rfl
  | j :: q, songs => by
    rw [show appendDeletesQ songs (j :: q) =
      appendDeletesQ (modifyIdx songs j
        (fun s => { s with actions := s.actions ++ [.Delete] })) q from rfl]
    rw [appendDeletesQ_length q _, modifyIdx_length]

theorem appendDeletesQ_not_mem : ∀ (q : List Nat) (songs : List Song) (j : Nat) (d : Song),
    j ∉ q → (appendDeletesQ songs q).getD j d = songs.getD j d
  | [], songs, j, d, _ => rfl
  | j0 :: q, songs, j, d, h => by
    have hne : j ≠ j0 := fun hc => h (hc ▸ List.mem_cons_self j0 q)
    have hq : j ∉ q := fun hc => h (List.mem_cons_of_mem j0 hc)
    rw [show appendDeletesQ songs (j0 :: q) =
      appendDeletesQ (modifyIdx songs j0
        (fun s => { s with actions := s.actions ++ [.Delete] })) q from rfl]
    rw [appendDeletesQ_not_mem q _ j d hq, modifyIdx_getD_ne _ _ _ _ _ hne]

theorem appendDeletesQ_mem : ∀ (q : List Nat) (songs : List Song) (j : Nat) (d : Song),
    q.Nodup → j ∈ q → j < songs.length →
    (appendDeletesQ songs q).getD j d =
      { songs.getD j d with actions := (songs.getD j d).actions ++ [.Delete] }
  | [], songs, j, d, _, h, _ => by simp at h
  | j0 :: q, songs, j, d, hnod, h, hlt => by
    rw [show appendDeletesQ songs (j0 :: q) =
      appendDeletesQ (modifyIdx songs j0
        (fun s => { s with actions := s.actions ++ [.Delete] })) q from rfl]
    rcases List.mem_cons.mp h with he | hmem
    · subst he
      have hq : j ∉ q := (List.nodup_cons.mp hnod).1
      rw [appendDeletesQ_not_mem q _ j d hq, modifyIdx_getD_self _ _ _ _ hlt]
    · have hne : j ≠ j0 := by
        intro he
        subst he
        exact (List.nodup_cons.mp hnod).1 hmem
      rw [appendDeletesQ_mem q _ j d (List.nodup_cons.mp hnod).2 hmem
        (by rw [modifyIdx_length]; exact hlt)]
      rw [modifyIdx_getD_ne _ _ _ _ _ hne]

theorem appendDeletes_length : ∀ (rem : List (String × List Nat)) (songs : List Song),
    (appendDeletes songs rem).length = songs.length
  | [], songs => rfl
  | (k, q) :: rest, songs => by
    rw [show appendDeletes songs ((k, q) :: rest) =
      appendDeletes (appendDeletesQ songs q) rest from rfl]
    rw [appendDeletes_length rest _, appendDeletesQ_length]

theorem appendDeletes_not_mem : ∀ (rem : List (String × List Nat)) (songs : List Song)
    (j : Nat) (d : Song), j ∉ joinedQ rem →
    (appendDeletes songs rem).getD j d = songs.getD j d
  | [], songs, j, d, _ => rfl
  | (k, q) :: rest, songs, j, d, h => by
    simp only [joinedQ, List.map_cons, List.flatten_cons, List.mem_append] at h
    push_neg at h
    rw [show appendDeletes songs ((k, q) :: rest) =
      appendDeletes (appendDeletesQ songs q) rest from rfl]
    rw [appendDeletes_not_mem rest _ j d (by simpa [joinedQ] using h.2)]
    exact appendDeletesQ_not_mem q songs j d h.1

theorem appendDeletes_mem : ∀ (rem : List (String × List Nat)) (songs : List Song)
    (j : Nat) (d : Song), (joinedQ rem).Nodup → j ∈ joinedQ rem → j < songs.length →
    (appendDeletes songs rem).getD j d =
      { songs.getD j d with actions := (songs.getD j d).actions ++ [.Delete] }
  | [], songs, j, d, _, h, _ => by simp [joinedQ] at h
  | (k, q) :: rest, songs, j, d, hnod, h, hlt => by
    simp only [joinedQ, List.map_cons, List.flatten_cons] at hnod h
    rcases List.nodup_append.mp hnod with ⟨hq, hrest, hdisj⟩
    rw [show appendDeletes songs ((k, q) :: rest) =
      appendDeletes (appendDeletesQ songs q) rest from rfl]
    rcases List.mem_append.mp h with hmem | hmem
    · have hnot : j ∉ joinedQ rest := fun hc => hdisj hmem (by simpa [joinedQ] using hc)
      rw [appendDeletes_not_mem rest _ j d hnot]
      exact appendDeletesQ_mem q songs j d hq hmem hlt
    · have hnot : j ∉ q := fun hc => hdisj hc hmem
      rw [appendDeletes_mem rest _ j d hrest (by simpa [joinedQ] using hmem)
        (by rw [appendDeletesQ_length]; exact hlt)]
      rw [appendDeletesQ_not_mem q songs j d hnot]

theorem appendDeletes_of_joined_nil : ∀ (rem : List (String × List Nat)) (songs : List Song),
    joinedQ rem = [] → appendDeletes songs rem = songs
  | [], songs, _ => rfl
  | (k, q) :: rest, songs, h => by
    simp only [joinedQ, List.map_cons, List.flatten_cons, List.append_eq_nil] at h
    rw [show appendDeletes songs ((k, q) :: rest) =
      appendDeletes (appendDeletesQ songs q) rest from rfl]
    rw [h.1]
    exact appendDeletes_of_joined_nil rest songs (by simpa [joinedQ] using h.2)

theorem alookup_none_of_not_mem_keys {β : Type} : ∀ (rem : List (String × β)) (k : String),
    k ∉ rem.map Prod.fst → alookup rem k = none
  | [], k, _ => rfl
  | (k0, v) :: rest, k, h => by
    simp only [List.map_cons, List.mem_cons] at h
    push_neg at h
    have hne : ¬ k0 = k := fun hc => h.1 hc.symm
    simp only [alookup, if_neg hne]
    exact alookup_none_of_not_mem_keys rest k h.2

theorem joinedQ_eq_nil_of_queues : ∀ (rem : List (String × List Nat)),
    (rem.map Prod.fst).Nodup → (∀ k, queueOf rem k = []) → joinedQ rem = []
  | [], _, _ => rfl
  | (k, q) :: rest, hkeys, h => by
    have hq : q = [] := by
      have := h k
      simpa [queueOf, alookup] using this
    have hkeys' : (rest.map Prod.fst).Nodup := (List.nodup_cons.mp (by simpa using hkeys)).2
    have hknot : k ∉ rest.map Prod.fst := (List.nodup_cons.mp (by simpa using hkeys)).1
    have h' : ∀ k', queueOf rest k' = [] := by
      intro k'
      by_cases hk : k' = k
      · subst hk
        simp [queueOf, alookup_none_of_not_mem_keys rest k' hknot]
      · have := h k'
        have hne : ¬ k = k' := fun hc => hk hc.symm
        simpa [queueOf, alookup, hne] using this
    simp [joinedQ, hq]
    simpa [joinedQ] using joinedQ_eq_nil_of_queues rest hkeys' h'

/-! ### filename lemmas (claim C10) -/

theorem digitChar_mem_digits (m : Nat) (h : m < 10) : Nat.digitChar m ∈ "-0123456789".data := by
  interval_cases m <;> decide

theorem toDigitsCore_mem_digits : ∀ (fuel n : Nat) (ds : List Char),
    (∀ c ∈ ds, c ∈ "-0123456789".data) →
    ∀ c ∈ Nat.toDigitsCore 10 fuel n ds, c ∈ "-0123456789".data := by
  intro fuel
  induction fuel with
  | zero =>
    intro n ds hds c hc
    rw [show Nat.toDigitsCore 10 0 n ds = ds from rfl] at hc
    exact hds c hc
  | succ fuel ih =>
    intro n ds hds c hc
    rw [show Nat.toDigitsCore 10 (fuel + 1) n ds =
      (if n / 10 = 0 then Nat.digitChar (n % 10) :: ds
       else Nat.toDigitsCore 10 fuel (n / 10) (Nat.digitChar (n % 10) :: ds)) from rfl] at hc
    have hd : Nat.digitChar (n % 10) ∈ "-0123456789".data :=
      digitChar_mem_digits _ (Nat.mod_lt _ (by norm_num))
    have hcons : ∀ c' ∈ Nat.digitChar (n % 10) :: ds, c' ∈ "-0123456789".data := by
      intro c' hc'
      rcases List.mem_cons.mp hc' with he | he
      · exact he ▸ hd
      · exact hds c' he
    by_cases h0 : n / 10 = 0
    · rw [if_pos h0] at hc
      exact hcons c hc
    · rw [if_neg h0] at hc
      exact ih (n / 10) _ hcons c hc

theorem natRepr_mem_digits (n : Nat) : ∀ c ∈ (Nat.repr n).data, c ∈ "-0123456789".data := by
  intro c hc
  exact toDigitsCore_mem_digits (n + 1) n [] (by simp) c hc

theorem intToString_mem_digits (i : Int) : ∀ c ∈ (toString i).data, c ∈ "-0123456789".data := by
  cases i with
  | ofNat m => exact natRepr_mem_digits m
  | negSucc m =>
    intro c hc
    have hdata : (toString (Int.negSucc m)).data = '-' :: (Nat.repr (m + 1)).data := rfl
    rw [hdata] at hc
    rcases List.mem_cons.mp hc with he | he
    · subst he
      decide
    · exact natRepr_mem_digits (m + 1) c he

theorem digits_not_reserved : ∀ c ∈ "-0123456789".data, c ∉ RESERVED_FILENAME_CHARS := by
  decide

theorem sanitize_mem_not_reserved (s : String) :
    ∀ c ∈ (sanitize_filename s).data, c ∉ RESERVED_FILENAME_CHARS := by
  intro c hc hmem
  have hc' : c ∈ s.data.filter (fun c => !(RESERVED_FILENAME_CHARS.contains c)) := hc
  rcases List.mem_filter.mp hc' with ⟨_, hp⟩
  simp at hp
  exact hp hmem

theorem sanitize_append (s1 s2 : String) :
    sanitize_filename (s1 ++ s2) = sanitize_filename s1 ++ sanitize_filename s2 := by
  unfold sanitize_filename
  rw [show (s1 ++ s2).data = s1.data ++ s2.data from rfl, List.filter_append]
  rfl

theorem sanitize_eq_self (s : String) (h : ∀ c ∈ s.data, c ∉ RESERVED_FILENAME_CHARS) :
    sanitize_filename s = s := by
  unfold sanitize_filename
  have hf : s.data.filter (fun c => !(RESERVED_FILENAME_CHARS.contains c)) = s.data := by
    apply List.filter_eq_self.mpr
    intro a ha
    simpa using h a ha
  rw [hf]

theorem sanitize_core_spec (ts rest : String)
    (hts : ∀ c ∈ ts.data, c ∉ RESERVED_FILENAME_CHARS) :
    (∀ c ∈ (sanitize_filename (ts ++ rest ++ ".mp3")).data, c ∉ RESERVED_FILENAME_CHARS) ∧
    ".mp3".data <:+ (sanitize_filename (ts ++ rest ++ ".mp3")).data ∧
    ts.data <+: (sanitize_filename (ts ++ rest ++ ".mp3")).data := by
  refine ⟨sanitize_mem_not_reserved _, ?_, ?_⟩
  · rw [sanitize_append (ts ++ rest) ".mp3",
      show sanitize_filename ".mp3" = ".mp3" from rfl]
    exact ⟨(sanitize_filename (ts ++ rest)).data, rfl⟩
  · rw [sanitize_append (ts ++ rest) ".mp3", sanitize_append ts rest, sanitize_eq_self ts hts]
    refine ⟨(sanitize_filename rest ++ ".mp3").data, ?_⟩
    show ts.data ++ (sanitize_filename rest ++ ".mp3").data =
      (ts ++ sanitize_filename rest ++ ".mp3").data
    rw [show (ts ++ sanitize_filename rest ++ ".mp3").data =
      (ts.data ++ (sanitize_filename rest).data) ++ ".mp3".data from rfl]
    rw [show (sanitize_filename rest ++ ".mp3").data =
      (sanitize_filename rest).data ++ ".mp3".data from rfl]
    rw [List.append_assoc]

/-! ### future-value lemmas (claim C2) -/

theorem foldl_index_eq_runSong : ∀ (acts : List SongAction) (s : Song),
    acts.foldl (fun v a => match a with
      | SongAction.UpdateIndexMetadata x => some x
      | _ => v) s.index = (runSong s acts).index
  | [], s => rfl
  | a :: acts, s => by
    have hstep : (match a with
        | SongAction.UpdateIndexMetadata x => some x
        | _ => s.index) = (applyFields s a).index := by
      cases a <;> rfl
    simp only [List.foldl_cons, hstep]
    exact foldl_index_eq_runSong acts (applyFields s a)

theorem foldl_artist_eq_runSong : ∀ (acts : List SongAction) (s : Song),
    acts.foldl (fun v a => match a with
      | SongAction.UpdateArtistMetadata x => x
      | _ => v) s.artist = (runSong s acts).artist
  | [], s => rfl
  | a :: acts, s => by
    have hstep : (match a with
        | SongAction.UpdateArtistMetadata x => x
        | _ => s.artist) = (applyFields s a).artist := by
      cases a <;> rfl
    simp only [List.foldl_cons, hstep]
    exact foldl_artist_eq_runSong acts (applyFields s a)

theorem foldl_title_eq_runSong : ∀ (acts : List SongAction) (s : Song),
    acts.foldl (fun v a => match a with
      | SongAction.UpdateTitleMetadata x => some x
      | _ => v) s.title = (runSong s acts).title
  | [], s => rfl
  | a :: acts, s => by
    have hstep : (match a with
        | SongAction.UpdateTitleMetadata x => some x
        | _ => s.title) = (applyFields s a).title := by
      cases a <;> rfl
    simp only [List.foldl_cons, hstep]
    exact foldl_title_eq_runSong acts (applyFields s a)

/-- the predicate keeping every action except `Download` (the correction
claim C2 needs: `get_future_video_id` scans only `UpdateVideoIdMetadata`
instances, so a `Download`, whose apply does set the committed video id, is
invisible to it). -/
def notDownload (a : SongAction) : Bool :=
  match a with
  | .Download _ _ => false
  | _ => true

theorem foldl_video_id_eq_runSong_filter : ∀ (acts : List SongAction) (s : Song),
    acts.foldl (fun v a => match a with
      | SongAction.UpdateVideoIdMetadata x => some x
      | _ => v) s.video_id = (runSong s (acts.filter notDownload)).video_id
  | [], s => rfl
  | a :: acts, s => by
    match a with
    | .Download v f =>
      simp only [List.foldl_cons, List.filter_cons]
      rw [show notDownload (SongAction.Download v f) = false from rfl]
      simp only [Bool.false_eq_true, if_false]
      exact foldl_video_id_eq_runSong_filter acts s
    | .UpdateVideoIdMetadata x =>
      simp only [List.foldl_cons, List.filter_cons]
      rw [show notDownload (SongAction.UpdateVideoIdMetadata x) = true from rfl]
      simp only [if_true]
      rw [show (runSong s (SongAction.UpdateVideoIdMetadata x :: acts.filter notDownload)) =
        runSong (applyFields s (SongAction.UpdateVideoIdMetadata x)) (acts.filter notDownload)
        from rfl]
      exact foldl_video_id_eq_runSong_filter acts (applyFields s (.UpdateVideoIdMetadata x))
    | .UpdateIndexMetadata x =>
      simp only [List.foldl_cons, List.filter_cons]
      rw [show notDownload (SongAction.UpdateIndexMetadata x) = true from rfl]
      simp only [if_true]
      rw [show (runSong s (SongAction.UpdateIndexMetadata x :: acts.filter notDownload)) =
        runSong (applyFields s (SongAction.UpdateIndexMetadata x)) (acts.filter notDownload)
        from rfl]
      exact foldl_video_id_eq_runSong_filter acts (applyFields s (.UpdateIndexMetadata x))
    | .UpdateArtistMetadata x =>
      simp only [List.foldl_cons, List.filter_cons]
      rw [show notDownload (SongAction.UpdateArtistMetadata x) = true from rfl]
      simp only [if_true]
      rw [show (runSong s (SongAction.UpdateArtistMetadata x :: acts.filter notDownload)) =
        runSong (applyFields s (SongAction.UpdateArtistMetadata x)) (acts.filter notDownload)
        from rfl]
      exact foldl_video_id_eq_runSong_filter acts (applyFields s (.UpdateArtistMetadata x))
    | .UpdateTitleMetadata x =>
      simp only [List.foldl_cons, List.filter_cons]
      rw [show notDownload (SongAction.UpdateTitleMetadata x) = true from rfl]
      simp only [if_true]
      rw [show (runSong s (SongAction.UpdateTitleMetadata x :: acts.filter notDownload)) =
        runSong (applyFields s (SongAction.UpdateTitleMetadata x)) (acts.filter notDownload)
        from rfl]
      exact foldl_video_id_eq_runSong_filter acts (applyFields s (.UpdateTitleMetadata x))
    | .Delete =>
      simp only [List.foldl_cons, List.filter_cons]
      rw [show notDownload SongAction.Delete = true from rfl]
      simp only [if_true]
      rw [show (runSong s (SongAction.Delete :: acts.filter notDownload)) =
        runSong (applyFields s SongAction.Delete) (acts.filter notDownload) from rfl]
      exact foldl_video_id_eq_runSong_filter acts (applyFields s .Delete)
    | .Normalize =>
      simp only [List.foldl_cons, List.filter_cons]
      rw [show notDownload SongAction.Normalize = true from rfl]
      simp only [if_true]
      rw [show (runSong s (SongAction.Normalize :: acts.filter notDownload)) =
        runSong (applyFields s SongAction.Normalize) (acts.filter notDownload) from rfl]
      exact foldl_video_id_eq_runSong_filter acts (applyFields s .Normalize)
    | .RenameFile n =>
      simp only [List.foldl_cons, List.filter_cons]
      rw [show notDownload (SongAction.RenameFile n) = true from rfl]
      simp only [if_true]
      rw [show (runSong s (SongAction.RenameFile n :: acts.filter notDownload)) =
        runSong (applyFields s (SongAction.RenameFile n)) (acts.filter notDownload) from rfl]
      exact foldl_video_id_eq_runSong_filter acts (applyFields s (.RenameFile n))

/-! ### claim theorems: utils and future values -/

/-- C3 (code bug): `parse_video_title` is specified to strip every `[...]`
span and every qualifying `(...)` span, but the reconstruction loop at
utils.py:51-62 assumes `remove_spans` is sorted by position while the code
collects all bracket spans before all parenthesis spans; on
`"(video) [x] t"` (a qualifying parenthesis span before a bracket span) the
cleaned title keeps both spans and even duplicates text, yielding
`(None, "(video)  [x] t")` instead of the specified `(None, "t")`.  The
spec's own three examples, whose spans are in sorted order, do hold. -/
theorem parse_video_title_span_bug_eval :
    parse_video_title "(video) [x] t" = (none, "(video)  [x] t") ∧
    parse_video_title "Artist - Song [Official Video]" = (some "Artist", "Song") ∧
    parse_video_title "Some Song (Lyric Video)" = (none, "Some Song") ∧
    parse_video_title "A - B - C" = (some "A", "B - C") := by
  refine ⟨?_, ?_, ?_, ?_⟩ <;> rfl

/-- a `Song()` whose only pending action is a `Download`; its future video
id as scanned by `get_future_video_id` disagrees with the value the queue
would commit, because `Download.apply` also writes `song.video_id`
(song_actions.py:112) while the scan only matches
`UpdateVideoIdMetadata`. -/
def downloadOnlySong : Song := { actions := [.Download "x" "f"] }

/-- C2 (counterexample): the claim says the future-value operation returns
the value the attribute would hold after running the pending actions, for
every action whose apply writes the attribute, including `Download`.  For a
song whose queue is `[Download "x" "f"]`, running the queue sets the
committed video id to `"x"`, but `get_future_video_id` returns `none`. -/
theorem get_future_video_id_ignores_download :
    downloadOnlySong.get_future_video_id = none ∧
    (runSong downloadOnlySong downloadOnlySong.actions).video_id = some "x" ∧
    downloadOnlySong.get_future_video_id ≠
      (runSong downloadOnlySong downloadOnlySong.actions).video_id := by
  refine ⟨rfl, rfl, by decide⟩

/-- C2 (amended): for index, artist and title the future-value scans agree
with running the pending actions in order from the committed state (these
attributes are written only by their `Update*Metadata` action); for the
video id the scan agrees with running the queue with `Download` actions
removed — only `UpdateVideoIdMetadata` payloads are reflected, which is the
correction the counterexample forces.  A song with an empty queue yields
its committed values, and appending a fresh update action shadows every
earlier write of the same attribute (last-write-wins). -/
theorem future_values_spec :
    (∀ s : Song, s.get_future_index = (runSong s s.actions).index) ∧
    (∀ s : Song, s.get_future_artist = (runSong s s.actions).artist) ∧
    (∀ s : Song, s.get_future_title = (runSong s s.actions).title) ∧
    (∀ s : Song, s.get_future_video_id =
      (runSong s (s.actions.filter notDownload)).video_id) ∧
    (∀ v i a t f, (Song.mk v i a t f []).get_future_video_id = v ∧
      (Song.mk v i a t f []).get_future_index = i ∧
      (Song.mk v i a t f []).get_future_artist = a ∧
      (Song.mk v i a t f []).get_future_title = t) ∧
    (∀ (s : Song) (x : String),
      Song.get_future_video_id
        { s with actions := s.actions ++ [.UpdateVideoIdMetadata x] } = some x) ∧
    (∀ (s : Song) (x : Int),
      Song.get_future_index
        { s with actions := s.actions ++ [.UpdateIndexMetadata x] } = some x) ∧
    (∀ (s : Song) (x : Option String),
      Song.get_future_artist
        { s with actions := s.actions ++ [.UpdateArtistMetadata x] } = x) ∧
    (∀ (s : Song) (x : String),
      Song.get_future_title
        { s with actions := s.actions ++ [.UpdateTitleMetadata x] } = some x) := by
  refine ⟨?_, ?_, ?_, ?_, ?_, ?_, ?_, ?_, ?_⟩
  · intro s
    exact foldl_index_eq_runSong s.actions s
  · intro s
    exact foldl_artist_eq_runSong s.actions s
  · intro s
    exact foldl_title_eq_runSong s.actions s
  · intro s
    exact foldl_video_id_eq_runSong_filter s.actions s
  · intro v i a t f
    exact ⟨rfl, rfl, rfl, rfl⟩
  · intro s x
    simp [Song.get_future_video_id, List.foldl_append]
  · intro s x
    simp [Song.get_future_index, List.foldl_append]
  · intro s x
    simp [Song.get_future_artist, List.foldl_append]
  · intro s x
    simp [Song.get_future_title, List.foldl_append]

/-- C10: `make_filename` sanitizes the whole formatted name, so the result
contains no reserved filesystem character; the `".mp3"` tail and the
decimal index prefix survive sanitization because none of their characters
is reserved; and the body is exactly the sanitized
`"{index} {title}.mp3"` / `"{index} {artist} - {title}.mp3"` format. -/
theorem make_filename_spec (artist : Option String) (title : String) (index : Int) :
    (∀ c ∈ (make_filename artist title index).data, c ∉ RESERVED_FILENAME_CHARS) ∧
    ".mp3".data <:+ (make_filename artist title index).data ∧
    (toString index).data <+: (make_filename artist title index).data ∧
    make_filename none title index =
      sanitize_filename (toString index ++ " " ++ title ++ ".mp3") ∧
    (∀ a, make_filename (some a) title index =
      sanitize_filename (toString index ++ " " ++ a ++ " - " ++ title ++ ".mp3")) := by
  have hts : ∀ c ∈ (toString index).data, c ∉ RESERVED_FILENAME_CHARS :=
    fun c hc => digits_not_reserved c (intToString_mem_digits index c hc)
  cases artist with
  | none =>
    have he : make_filename none title index =
        sanitize_filename (toString index ++ (" " ++ title) ++ ".mp3") := by
      show sanitize_filename (toString index ++ " " ++ title ++ ".mp3") = _
      rw [String.append_assoc (toString index) " " title]
    obtain ⟨h1, h2, h3⟩ := sanitize_core_spec (toString index) (" " ++ title) hts
    rw [he]
    exact ⟨h1, h2, h3, by rw [String.append_assoc (toString index) " " title], fun a => rfl⟩
  | some a0 =>
    have he : make_filename (some a0) title index =
        sanitize_filename (toString index ++ (" " ++ a0 ++ " - " ++ title) ++ ".mp3") := by
      show sanitize_filename (toString index ++ " " ++ a0 ++ " - " ++ title ++ ".mp3") = _
      rw [String.append_assoc (toString index) " " a0,
        String.append_assoc (toString index) (" " ++ a0) " - ",
        String.append_assoc (toString index) (" " ++ a0 ++ " - ") title]
    obtain ⟨h1, h2, h3⟩ := sanitize_core_spec (toString index) (" " ++ a0 ++ " - " ++ title) hts
    rw [he]
    exact ⟨h1, h2, h3, rfl, fun a => rfl⟩

/-- witness for `make_filename_spec` at a concrete input: the reserved `/`
of `"AC/DC"` is gone and the membership hypothesis of the first conjunct is
discharged at the character `A`. -/
theorem make_filename_spec_witness :
    ('A' ∈ (make_filename (some "AC/DC") "T.N.T?" 3).data ∧
      'A' ∉ RESERVED_FILENAME_CHARS) ∧
    make_filename (some "AC/DC") "T.N.T?" 3 = "3 ACDC - T.N.T.mp3" := by
  refine ⟨⟨by decide, (make_filename_spec (some "AC/DC") "T.N.T?" 3).1 'A' (by decide)⟩, by decide⟩

/-! ### prefix composition of the loop (claim C1) -/

theorem syncLoop_append_ok (fetch : String → Option String) (dir : String) (ra : Bool) :
    ∀ (pre : List (Option VideoInfo)) (i : Nat) (st st1 : SyncSt)
      (ys : List (Option VideoInfo)),
    syncLoop fetch dir ra i pre st = .ok st1 →
    syncLoop fetch dir ra i (pre ++ ys) st = syncLoop fetch dir ra (i + pre.length) ys st1
  | [], i, st, st1, ys, h => by
    have he : st = st1 := by simpa [syncLoop] using h
    subst he
    simp
  | none :: pre, i, st, st1, ys, h => by
    replace h : syncLoop fetch dir ra (i + 1) pre st = .ok st1 := h
    have hrec := syncLoop_append_ok fetch dir ra pre (i + 1) st st1 ys h
    have harith : i + 1 + pre.length = i + (none :: pre).length := by
      simp
      omega
    rw [show syncLoop fetch dir ra i ((none :: pre) ++ ys) st =
      syncLoop fetch dir ra (i + 1) (pre ++ ys) st from rfl, hrec, harith]
  | some info :: pre, i, st, st1, ys, h => by
    rcases hid : info.id with _ | key
    · replace h : (Except.error (SyncError.noId i, st) :
          Except (SyncError × SyncSt) SyncSt) = .ok st1 := by
        simpa only [syncLoop, hid] using h
      simp at h
    · have harith : i + 1 + pre.length = i + (some info :: pre).length := by
        simp
        omega
      rcases halo : alookup st.remaining key with _ | (_ | ⟨j, q⟩)
      · rcases hres : get_video_title fetch st.cache key info.title with err | pr
        · replace h : (Except.error (err, st) :
              Except (SyncError × SyncSt) SyncSt) = .ok st1 := by
            simpa only [syncLoop, hid, halo, hres] using h
          simp at h
        · obtain ⟨vt, cache'⟩ := pr
          replace h : syncLoop fetch dir ra (i + 1) pre
              ⟨st.songs ++ [newSong dir key (parse_video_title vt).1 (parse_video_title vt).2 i],
               st.remaining, cache'⟩ = .ok st1 := by
            simpa only [syncLoop, hid, halo, hres] using h
          have hrec := syncLoop_append_ok fetch dir ra pre (i + 1) _ st1 ys h
          calc syncLoop fetch dir ra i ((some info :: pre) ++ ys) st
              = syncLoop fetch dir ra (i + 1) (pre ++ ys)
                  ⟨st.songs ++ [newSong dir key (parse_video_title vt).1
                    (parse_video_title vt).2 i], st.remaining, cache'⟩ := by
                simp only [List.cons_append, syncLoop, hid, halo, hres]
                try rfl
            _ = syncLoop fetch dir ra (i + 1 + pre.length) ys st1 := hrec
            _ = syncLoop fetch dir ra (i + (some info :: pre).length) ys st1 := by rw [harith]
      · rcases hres : get_video_title fetch st.cache key info.title with err | pr
        · replace h : (Except.error (err, st) :
              Except (SyncError × SyncSt) SyncSt) = .ok st1 := by
            simpa only [syncLoop, hid, halo, hres] using h
          simp at h
        · obtain ⟨vt, cache'⟩ := pr
          replace h : syncLoop fetch dir ra (i + 1) pre
              ⟨st.songs ++ [newSong dir key (parse_video_title vt).1 (parse_video_title vt).2 i],
               st.remaining, cache'⟩ = .ok st1 := by
            simpa only [syncLoop, hid, halo, hres] using h
          have hrec := syncLoop_append_ok fetch dir ra pre (i + 1) _ st1 ys h
          calc syncLoop fetch dir ra i ((some info :: pre) ++ ys) st
              = syncLoop fetch dir ra (i + 1) (pre ++ ys)
                  ⟨st.songs ++ [newSong dir key (parse_video_title vt).1
                    (parse_video_title vt).2 i], st.remaining, cache'⟩ := by
                simp only [List.cons_append, syncLoop, hid, halo, hres]
                try rfl
            _ = syncLoop fetch dir ra (i + 1 + pre.length) ys st1 := hrec
            _ = syncLoop fetch dir ra (i + (some info :: pre).length) ys st1 := by rw [harith]
      · replace h : syncLoop fetch dir ra (i + 1) pre
            ⟨modifyIdx st.songs j
              (fun s => { s with actions := s.actions ++ matchedActions s i ra }),
             popHead st.remaining key, st.cache⟩ = .ok st1 := by
          simpa only [syncLoop, hid, halo] using h
        have hrec := syncLoop_append_ok fetch dir ra pre (i + 1) _ st1 ys h
        calc syncLoop fetch dir ra i ((some info :: pre) ++ ys) st
            = syncLoop fetch dir ra (i + 1) (pre ++ ys)
                ⟨modifyIdx st.songs j
                  (fun s => { s with actions := s.actions ++ matchedActions s i ra }),
                 popHead st.remaining key, st.cache⟩ := by
              simp only [List.cons_append, syncLoop, hid, halo]
              try rfl
          _ = syncLoop fetch dir ra (i + 1 + pre.length) ys st1 := hrec
          _ = syncLoop fetch dir ra (i + (some info :: pre).length) ys st1 := by rw [harith]

/-! ### claim C1 -/

/-- a loaded song used by several concrete scenarios below. -/
def songA : Song :=
  { video_id := some "A", index := some 5, artist := none, title := some "t",
    file := some "A.mp3" }

/-- C1 (counterexample): the claim says a malformed remote entry aborts the
sync before ANY mutation is queued.  But the loop queues mutations entry by
entry: with a local song for id `"A"` at committed index 5 and the remote
list `[{id:"A"}, {no id}]`, the first entry queues `UpdateIndexMetadata 0`
on the song, and only then does the second entry raise — the error state
carries a song with a non-empty pending queue. -/
theorem sync_partial_mutation_on_malformed_entry :
    sync (fun _ => none) "d" false false [songA] []
        [some ⟨some "A", some "T"⟩, some ⟨none, none⟩] =
      .error (.noId 1,
        ⟨[{ songA with actions := [.UpdateIndexMetadata 0] }], [("A", [])], []⟩) ∧
    ({ songA with actions := [.UpdateIndexMetadata 0] } : Song).actions ≠ [] := by
  exact ⟨rfl, by decide⟩

/-- C1 (amended): when the loop reaches a non-placeholder entry with no
identity key it raises the remote-metadata error `noId` at that entry's
index, and the state carried out is exactly the state after the prefix of
earlier entries — nothing from the malformed entry or any later entry is
ever queued.  (In particular, when the malformed entry comes before every
matching entry, no song has any pending action; mutations queued for
earlier entries, however, do survive, which is what the counterexample
shows.) -/
theorem sync_malformed_entry_error_after_prefix
    (fetch : String → Option String) (dir : String) (da ra : Bool)
    (songs0 : List Song) (cache0 : List (String × String))
    (pre rest : List (Option VideoInfo)) (info : VideoInfo) (st1 : SyncSt)
    (hpre : syncLoop fetch dir ra 0 pre ⟨songs0, buildRemaining songs0, cache0⟩ = .ok st1)
    (hmal : info.id = none) :
    sync fetch dir da ra songs0 cache0 (pre ++ some info :: rest) =
      .error (.noId pre.length, st1) := by
  unfold sync
  rw [syncLoop_append_ok fetch dir ra pre 0 _ st1 (some info :: rest) hpre]
  rw [show syncLoop fetch dir ra (0 + pre.length) (some info :: rest) st1 =
    .error (.noId (0 + pre.length), st1) from by simp only [syncLoop, hmal]]
  simp

/-- witness for `sync_malformed_entry_error_after_prefix`: the empty prefix
on an empty inventory. -/
theorem sync_malformed_entry_error_after_prefix_witness :
    syncLoop (fun _ => none) "d" false 0 []
        (⟨[], buildRemaining [], []⟩ : SyncSt) = .ok ⟨[], buildRemaining [], []⟩ ∧
    (⟨none, none⟩ : VideoInfo).id = none ∧
    sync (fun _ => none) "d" false false [] [] ([] ++ some ⟨none, none⟩ :: []) =
      .error (.noId ([] : List (Option VideoInfo)).length, ⟨[], buildRemaining [], []⟩) :=
  ⟨rfl, rfl,
    sync_malformed_entry_error_after_prefix (fun _ => none) "d" false false [] [] [] []
      ⟨none, none⟩ ⟨[], buildRemaining [], []⟩ rfl rfl⟩

/-! ### claim C4 -/

/-- C4: a local item matched to the remote entry at index `i` (its key is
found with a non-empty queue) receives exactly `matchedActions`: nothing
when its committed index is already `i`; otherwise `UpdateIndexMetadata i`
followed by a `RenameFile` exactly when renames are allowed and the
committed primary attribute — the title, per the data model's
"primaryAttribute, secondaryAttribute (e.g. title/artist)" and the
testable property "if rename allowed and title known" — is present, with
the name built from the committed artist/title and `i`; and never a
`Download` or a `Delete`. -/
theorem sync_matched_entry_actions
    (fetch : String → Option String) (dir : String) (ra : Bool) (i : Nat)
    (info : VideoInfo) (key : String) (rest : List (Option VideoInfo))
    (st : SyncSt) (j : Nat) (q : List Nat)
    (hid : info.id = some key)
    (halo : alookup st.remaining key = some (j :: q)) :
    syncLoop fetch dir ra i (some info :: rest) st =
      syncLoop fetch dir ra (i + 1) rest
        ⟨modifyIdx st.songs j
          (fun s => { s with actions := s.actions ++ matchedActions s i ra }),
         popHead st.remaining key, st.cache⟩ ∧
    (∀ s : Song,
      (s.index = some (i : Int) → matchedActions s i ra = []) ∧
      (s.index ≠ some (i : Int) →
        matchedActions s i ra =
          .UpdateIndexMetadata (i : Int) ::
            (if ra then
              match s.title with
              | some t => [.RenameFile (make_filename s.artist t (i : Int))]
              | none => []
            else [])) ∧
      (∀ a ∈ matchedActions s i ra,
        (∀ v f, a ≠ .Download v f) ∧ a ≠ .Delete)) := by
  constructor
  · simp only [syncLoop, hid, halo]
  · intro s
    refine ⟨?_, ?_, ?_⟩
    · intro h
      simp [matchedActions, h]
    · intro h
      rw [matchedActions, if_neg h]
    · intro a ha
      rw [matchedActions] at ha
      by_cases h : s.index = some (i : Int)
      · rw [if_pos h] at ha
        simp at ha
      · rw [if_neg h] at ha
        rcases List.mem_cons.mp ha with he | he
        · subst he
          exact ⟨fun v f => by simp, by simp⟩
        · by_cases hra : ra
          · rw [if_pos hra] at he
            match ht : s.title with
            | some t =>
              rw [ht] at he
              simp only [List.mem_singleton] at he
              subst he
              exact ⟨fun v f => by simp, by simp⟩
            | none =>
              rw [ht] at he
              simp at he
          · rw [if_neg hra] at he
            simp at he

/-- witness for `sync_matched_entry_actions`: the reorder of `songA` from
index 5 to 0 with renames off appends exactly one index update. -/
theorem sync_matched_entry_actions_witness :
    matchedActions songA 0 false = [.UpdateIndexMetadata 0] :=
  ((sync_matched_entry_actions (fun _ => none) "d" false 0 ⟨some "A", none⟩ "A" []
      ⟨[songA], [("A", [0])], []⟩ 0 [] rfl rfl).2 songA).2.1 (by decide)

/-! ### claim C5 -/

/-- C5: a remote entry whose key matches no remaining local item makes the
loop append one brand-new `Song()` whose queue is exactly the six-action
sequence `[Download, Normalize, UpdateArtistMetadata, UpdateTitleMetadata,
UpdateIndexMetadata i, UpdateVideoIdMetadata key]`: download and
normalization precede every metadata write and the video-id write is
last. -/
theorem sync_new_entry_action_sequence
    (fetch : String → Option String) (dir : String) (ra : Bool) (i : Nat)
    (info : VideoInfo) (key : String) (rest : List (Option VideoInfo))
    (st : SyncSt) (vt : String) (cache' : List (String × String))
    (hid : info.id = some key)
    (hq0 : queueOf st.remaining key = [])
    (hres : get_video_title fetch st.cache key info.title = .ok (vt, cache')) :
    syncLoop fetch dir ra i (some info :: rest) st =
      syncLoop fetch dir ra (i + 1) rest
        ⟨st.songs ++ [newSong dir key (parse_video_title vt).1 (parse_video_title vt).2 i],
         st.remaining, cache'⟩ ∧
    (∀ (d k : String) (a : Option String) (t : String) (p : Nat),
      (newSong d k a t p).actions =
        [.Download k (d ++ "/" ++ make_filename a t (p : Int)), .Normalize,
         .UpdateArtistMetadata a, .UpdateTitleMetadata t,
         .UpdateIndexMetadata (p : Int), .UpdateVideoIdMetadata k] ∧
      (newSong d k a t p).actions.length = 6 ∧
      (newSong d k a t p).actions.getLast? = some (.UpdateVideoIdMetadata k) ∧
      (newSong d k a t p).video_id = none ∧ (newSong d k a t p).file = none ∧
      (newSong d k a t p).index = none) := by
  constructor
  · have hcases : alookup st.remaining key = none ∨ alookup st.remaining key = some [] := by
      rcases halo : alookup st.remaining key with _ | q0
      · exact Or.inl rfl
      · right
        have : q0 = [] := by simpa [queueOf, halo] using hq0
        rw [this]
    rcases hcases with halo | halo
    · simp only [syncLoop, hid, halo, hres]
    · simp only [syncLoop, hid, halo, hres]
  · intro d k a t p
    exact ⟨rfl, rfl, rfl, rfl, rfl, rfl⟩

/-- witness for `sync_new_entry_action_sequence`: a brand-new id `"N"` on
an empty inventory. -/
theorem sync_new_entry_action_sequence_witness :
    (newSong "d" "N" (some "New") "Guy" 0).actions =
      [.Download "N" ("d" ++ "/" ++ make_filename (some "New") "Guy" 0), .Normalize,
       .UpdateArtistMetadata (some "New"), .UpdateTitleMetadata "Guy",
       .UpdateIndexMetadata 0, .UpdateVideoIdMetadata "N"] :=
  ((sync_new_entry_action_sequence (fun _ => none) "d" false 0
      ⟨some "N", some "New - Guy"⟩ "N" [] ⟨[], [], []⟩ "New - Guy"
      [("N", "New - Guy")] rfl rfl rfl).2 "d" "N" (some "New") "Guy" 0).1

/-! ### claim C8 -/

/-- C8: an unavailable/private placeholder (`None` entry) is skipped as a
pure no-op: the loop continues on the tail with the entry counter advanced
past the placeholder's own index and the state untouched — no queue
consumed, no action queued, no song created; and the position assigned to
any valid entry is its own array index in the full entry list
(`keyPositions`, the positions the characterization theorems hand to
`matchedActions`/`UpdateIndexMetadata`, holds exactly the array indices of
present entries with the key, so a placeholder's index is never
assigned). -/
theorem sync_skips_unavailable_entries :
    (∀ (fetch : String → Option String) (dir : String) (ra : Bool) (i : Nat)
      (rest : List (Option VideoInfo)) (st : SyncSt),
      syncLoop fetch dir ra i (none :: rest) st = syncLoop fetch dir ra (i + 1) rest st) ∧
    (∀ (entries : List (Option VideoInfo)) (k : String) (p : Nat),
      p ∈ keyPositions k entries 0 ↔
        ∃ v, entries.get? p = some (some v) ∧ v.id = some k) ∧
    (∀ (entries : List (Option VideoInfo)) (p : Nat), entries.get? p = some none →
      ∀ k, p ∉ keyPositions k entries 0) := by
  refine ⟨fun _ _ _ _ _ _ => rfl, ?_, ?_⟩
  · intro entries k p
    rw [mem_keyPositions_iff]
    constructor
    · rintro ⟨v, _, hget, hidv⟩
      exact ⟨v, by simpa using hget, hidv⟩
    · rintro ⟨v, hget, hidv⟩
      exact ⟨v, Nat.zero_le p, by simpa using hget, hidv⟩
  · intro entries p hget k hmem
    obtain ⟨v, _, hget', _⟩ := (mem_keyPositions_iff k entries 0 p).mp hmem
    rw [show p - 0 = p from rfl, hget] at hget'
    simp at hget'

/-- witness for `sync_skips_unavailable_entries`: one placeholder entry. -/
theorem sync_skips_unavailable_entries_witness :
    syncLoop (fun _ => none) "d" false 0 [none] (⟨[], [], []⟩ : SyncSt) =
      syncLoop (fun _ => none) "d" false 1 [] (⟨[], [], []⟩ : SyncSt) ∧
    0 ∉ keyPositions "k" [none] 0 :=
  ⟨sync_skips_unavailable_entries.1 (fun _ => none) "d" false 0 [] ⟨[], [], []⟩,
   sync_skips_unavailable_entries.2.2 [none] 0 rfl "k"⟩

/-! ### final-state helper lemmas (claims C6, C7, C9) -/

theorem queueOf_nodup : ∀ (rem : List (String × List Nat)),
    (joinedQ rem).Nodup → ∀ k, (queueOf rem k).Nodup
  | [], _, k => by simp [queueOf, alookup]
  | (k0, q) :: rest, hnod, k => by
    simp only [joinedQ, List.map_cons, List.flatten_cons] at hnod
    rcases List.nodup_append.mp hnod with ⟨hq, hrest, _⟩
    by_cases hk : k0 = k
    · simpa [queueOf, alookup, hk] using hq
    · simpa [queueOf, alookup, hk] using queueOf_nodup rest hrest k

theorem queueOf_disjoint {rem : List (String × List Nat)} {k k' : String} {j : Nat}
    (hnod : (joinedQ rem).Nodup) (hne : k ≠ k') (hj : j ∈ queueOf rem k) :
    j ∉ queueOf rem k' := by
  intro hj'
  rcases halo : alookup rem k with _ | q0
  · rw [queueOf, halo] at hj
    simp at hj
  · obtain ⟨L1, L2, h1, _, h3⟩ := alookup_decomp rem k q0 halo
    rw [h1] at hnod
    have hjq0 : j ∈ q0 := by
      rw [queueOf, halo] at hj
      simpa using hj
    have hjL : j ∈ L1 ++ L2 := h3 k' (fun hc => hne hc.symm) hj'
    rcases List.nodup_append.mp hnod with ⟨hn1, _, hd2⟩
    rcases List.nodup_append.mp hn1 with ⟨_, _, hd1⟩
    rcases List.mem_append.mp hjL with h' | h'
    · exact hd1 h' hjq0
    · exact hd2 (List.mem_append_right L1 hjq0) h'

theorem mem_keys_of_alookup {β : Type} : ∀ (rem : List (String × β)) (k : String) (v : β),
    alookup rem k = some v → k ∈ rem.map Prod.fst
  | [], k, v, h => by simp [alookup] at h
  | (k0, v0) :: rest, k, v, h => by
    by_cases hk : k0 = k
    · simp [hk]
    · simp only [alookup, if_neg hk] at h
      simp [mem_keys_of_alookup rest k v h]

theorem mem_queueOf_of_mem_joined : ∀ (rem : List (String × List Nat)),
    (rem.map Prod.fst).Nodup → ∀ j, j ∈ joinedQ rem → ∃ k, j ∈ queueOf rem k
  | [], _, j, hj => by simp [joinedQ] at hj
  | (k0, q) :: rest, hkeys, j, hj => by
    simp only [joinedQ, List.map_cons, List.flatten_cons, List.mem_append] at hj
    rcases hj with hj | hj
    · exact ⟨k0, by simpa [queueOf, alookup] using hj⟩
    · have hkeys' : (rest.map Prod.fst).Nodup := (List.nodup_cons.mp (by simpa using hkeys)).2
      have hknot : k0 ∉ rest.map Prod.fst := (List.nodup_cons.mp (by simpa using hkeys)).1
      obtain ⟨k, hk⟩ := mem_queueOf_of_mem_joined rest hkeys' j (by simpa [joinedQ] using hj)
      refine ⟨k, ?_⟩
      have hne : ¬ k0 = k := by
        intro he
        subst he
        rcases halo : alookup rest k0 with _ | q0
        · rw [queueOf, halo] at hk
          simp at hk
        · exact hknot (mem_keys_of_alookup rest k0 q0 halo)
      simpa [queueOf, alookup, hne] using hk

theorem mem_iff_get?_some {α : Type} : ∀ (l : List α) (a : α),
    a ∈ l ↔ ∃ n, l.get? n = some a
  | [], a => by simp
  | b :: l, a => by
    rw [List.mem_cons, mem_iff_get?_some l a]
    constructor
    · rintro (he | ⟨n, hn⟩)
      · exact ⟨0, by simp [he]⟩
      · exact ⟨n + 1, by simpa using hn⟩
    · rintro ⟨n, hn⟩
      match n with
      | 0 =>
        left
        simpa using hn.symm
      | n + 1 =>
        right
        exact ⟨n, by simpa using hn⟩

theorem get?_eq_some_getD {α : Type} : ∀ (l : List α) (n : Nat) (d : α),
    n < l.length → l.get? n = some (l.getD n d)
  | [], n, d, h => by simp at h
  | a :: l, 0, d, _ => rfl
  | a :: l, n + 1, d, h => by
    simpa using get?_eq_some_getD l n d (by simpa using h)

theorem nodup_get?_inj {α : Type} : ∀ (l : List α) (t t' : Nat) (a : α),
    l.Nodup → l.get? t = some a → l.get? t' = some a → t = t'
  | [], t, t', a, _, h, _ => by simp at h
  | b :: l, 0, 0, a, _, _, _ => rfl
  | b :: l, 0, t' + 1, a, hnod, h, h' => by
    have hb : b = a := by simpa using h
    subst hb
    exact absurd (mem_of_get? (by simpa using h')) (List.nodup_cons.mp hnod).1
  | b :: l, t + 1, 0, a, hnod, h, h' => by
    have hb : b = a := by simpa using h'
    subst hb
    exact absurd (mem_of_get? (by simpa using h)) (List.nodup_cons.mp hnod).1
  | b :: l, t + 1, t' + 1, a, hnod, h, h' => by
    have := nodup_get?_inj l t t' a (List.nodup_cons.mp hnod).2
      (by simpa using h) (by simpa using h')
    omega

theorem nodup_not_mem_drop {α : Type} {l : List α} {t n : Nat} {a : α}
    (hnod : l.Nodup) (hget : l.get? t = some a) (hlt : t < n) : a ∉ l.drop n := by
  intro hc
  obtain ⟨t2, ht2⟩ := (mem_iff_get?_some _ _).mp hc
  rw [drop_get? l n t2] at ht2
  have := nodup_get?_inj l t (n + t2) a hnod hget ht2
  omega

theorem mem_drop_of_get?_ge {α : Type} {l : List α} {t n : Nat} {a : α}
    (hget : l.get? t = some a) (hge : n ≤ t) : a ∈ l.drop n := by
  apply (mem_iff_get?_some _ _).mpr
  refine ⟨t - n, ?_⟩
  rw [drop_get? l n (t - n)]
  rw [show n + (t - n) = t from by omega]
  exact hget

theorem matched_gone {entries : List (Option VideoInfo)} {i : Nat} {ra : Bool}
    {st st' : SyncSt} (D : LoopDescr entries i ra st st')
    (hjoin0 : (joinedQ st.remaining).Nodup) {k : String} {t j : Nat}
    (hget : (queueOf st.remaining k).get? t = some j)
    (hlt : t < (keyPositions k entries i).length) :
    ∀ k', j ∉ queueOf st'.remaining k' := by
  intro k'
  by_cases hk : k' = k
  · subst hk
    rw [D.queues k']
    exact nodup_not_mem_drop (queueOf_nodup st.remaining hjoin0 k') hget hlt
  · intro hc
    rw [D.queues k'] at hc
    have hmem : j ∈ queueOf st.remaining k' := List.drop_subset _ _ hc
    exact queueOf_disjoint hjoin0 (fun hc2 => hk hc2.symm) (mem_of_get? hget) hmem

/-- the `matchedActions` list always has one of three shapes. -/
theorem matchedActions_shape (s : Song) (i : Nat) (ra : Bool) :
    matchedActions s i ra = [] ∨
    (∃ ii, matchedActions s i ra = [.UpdateIndexMetadata ii]) ∨
    (∃ ii n, matchedActions s i ra = [.UpdateIndexMetadata ii, .RenameFile n]) := by
  rw [matchedActions]
  by_cases h : s.index = some (i : Int)
  · rw [if_pos h]
    exact Or.inl rfl
  · rw [if_neg h]
    by_cases hra : ra
    · rw [if_pos hra]
      match s.title with
      | some t => exact Or.inr (Or.inr ⟨(i : Int), make_filename s.artist t (i : Int), rfl⟩)
      | none => exact Or.inr (Or.inl ⟨(i : Int), rfl⟩)
    · rw [if_neg hra]
      exact Or.inr (Or.inl ⟨(i : Int), rfl⟩)

theorem get?_some_lt {α : Type} : ∀ (l : List α) (n : Nat) (a : α),
    l.get? n = some a → n < l.length
  | [], n, a, h => by simp at h
  | b :: l, 0, a, _ => by simp
  | b :: l, n + 1, a, h => by
    have := get?_some_lt l n a (by simpa using h)
    simpa using this

/-! ### claim C9 -/

/-- C9: after a successful reconciliation run, every song that was loaded
from the local inventory (it entered with an empty queue) ends with a
pending queue of exactly one of the four shapes: empty,
`[UpdateIndexMetadata i]`, `[UpdateIndexMetadata i, RenameFile n]`, or
`[Delete]` — in particular a matched (repositioned/renamed) song never
also receives a `Delete` in the same run. -/
theorem sync_local_song_action_shapes
    (fetch : String → Option String) (dir : String) (da ra : Bool)
    (songs0 : List Song) (cache0 : List (String × String))
    (entries : List (Option VideoInfo)) (stF : SyncSt)
    (hacts : ∀ s ∈ songs0, s.actions = [])
    (hok : sync fetch dir da ra songs0 cache0 entries = .ok stF) :
    ∀ j, j < songs0.length →
      (stF.songs.getD j emptySong).actions = [] ∨
      (∃ i : Int, (stF.songs.getD j emptySong).actions = [.UpdateIndexMetadata i]) ∨
      (∃ (i : Int) (n : String),
        (stF.songs.getD j emptySong).actions = [.UpdateIndexMetadata i, .RenameFile n]) ∨
      (stF.songs.getD j emptySong).actions = [.Delete] := by
  intro j hj
  have inv0 := inv_init songs0 cache0 hacts
  unfold sync at hok
  rcases hloop : syncLoop fetch dir ra 0 entries ⟨songs0, buildRemaining songs0, cache0⟩
    with e | st'
  · rw [hloop] at hok
    simp at hok
  · rw [hloop] at hok
    replace hok : (if da then { st' with songs := appendDeletes st'.songs st'.remaining }
        else st') = stF := by
      simpa using hok
    have hstF := hok.symm
    have D := syncLoop_ok_spec fetch dir ra entries 0 _ st' inv0 hloop
    have horig : (songs0.getD j emptySong).actions = [] :=
      hacts _ (getD_mem songs0 j emptySong hj)
    by_cases hq : ∃ k, j ∈ queueOf (buildRemaining songs0) k
    · obtain ⟨k, hjk⟩ := hq
      obtain ⟨t, ht⟩ := (mem_iff_get?_some _ _).mp hjk
      by_cases hlt : t < (keyPositions k entries 0).length
      · have hmt := D.matched k t j ht hlt
        have hgone : ∀ k', j ∉ queueOf st'.remaining k' :=
          matched_gone D inv0.idx_nodup ht hlt
        have hnotJ : j ∉ joinedQ st'.remaining := by
          intro hc
          obtain ⟨k', hk'⟩ := mem_queueOf_of_mem_joined st'.remaining D.inv'.keys_nodup j hc
          exact hgone k' hk'
        have hfin : stF.songs.getD j emptySong = st'.songs.getD j emptySong := by
          rw [hstF]
          by_cases hda : da
          · rw [if_pos hda]
            exact appendDeletes_not_mem st'.remaining st'.songs j emptySong hnotJ
          · rw [if_neg hda]
        have hact : (stF.songs.getD j emptySong).actions =
            matchedActions (songs0.getD j emptySong)
              ((keyPositions k entries 0).getD t 0) ra := by
          rw [hfin, hmt]
          show (songs0.getD j emptySong).actions ++
              matchedActions (songs0.getD j emptySong)
                ((keyPositions k entries 0).getD t 0) ra =
            matchedActions (songs0.getD j emptySong)
              ((keyPositions k entries 0).getD t 0) ra
          rw [horig]
          rfl
        rcases matchedActions_shape (songs0.getD j emptySong)
            ((keyPositions k entries 0).getD t 0) ra with h | ⟨ii, h⟩ | ⟨ii, n, h⟩
        · exact Or.inl (by rw [hact, h])
        · exact Or.inr (Or.inl ⟨ii, by rw [hact, h]⟩)
        · exact Or.inr (Or.inr (Or.inl ⟨ii, n, by rw [hact, h]⟩))
      · push_neg at hlt
        have hun := D.unmatched k t j ht hlt
        have hjfin : j ∈ queueOf st'.remaining k := by
          rw [D.queues k]
          exact mem_drop_of_get?_ge ht hlt
        have hjoinF : j ∈ joinedQ st'.remaining := queueOf_subset_joinedQ _ _ hjfin
        have hact' : (st'.songs.getD j emptySong).actions = [] := by
          rw [hun]
          exact horig
        by_cases hda : da
        · refine Or.inr (Or.inr (Or.inr ?_))
          rw [hstF, if_pos hda]
          rw [appendDeletes_mem st'.remaining st'.songs j emptySong D.inv'.idx_nodup hjoinF
            (lt_of_lt_of_le hj D.len_le)]
          show (st'.songs.getD j emptySong).actions ++ [SongAction.Delete] = [SongAction.Delete]
          rw [hact']
          rfl
        · refine Or.inl ?_
          rw [hstF, if_neg hda]
          exact hact'
    · push_neg at hq
      have hun := D.untouched j hj (fun k hc => hq k hc)
      have hnotJ0 : j ∉ joinedQ st'.remaining := by
        intro hc
        obtain ⟨k', hk'⟩ := mem_queueOf_of_mem_joined st'.remaining D.inv'.keys_nodup j hc
        rw [D.queues k'] at hk'
        exact hq k' (List.drop_subset _ _ hk')
      refine Or.inl ?_
      rw [hstF]
      by_cases hda : da
      · rw [if_pos hda, appendDeletes_not_mem st'.remaining st'.songs j emptySong hnotJ0, hun]
        exact horig
      · rw [if_neg hda, hun]
        exact horig

/-- the state a fully concrete one-song reorder run produces, used by the
witness below. -/
def stFc : SyncSt :=
  ⟨[{ songA with actions := [.UpdateIndexMetadata 0, .RenameFile "0 t.mp3"] }],
   [("A", [])], []⟩

/-- witness for `sync_local_song_action_shapes`: the one-song reorder run
lands in the `[UpdateIndexMetadata, RenameFile]` shape. -/
theorem sync_local_song_action_shapes_witness :
    (∀ s ∈ [songA], s.actions = ([] : List SongAction)) ∧
    ((stFc.songs.getD 0 emptySong).actions = [] ∨
      (∃ i : Int, (stFc.songs.getD 0 emptySong).actions = [.UpdateIndexMetadata i]) ∨
      (∃ (i : Int) (n : String),
        (stFc.songs.getD 0 emptySong).actions = [.UpdateIndexMetadata i, .RenameFile n]) ∨
      (stFc.songs.getD 0 emptySong).actions = [.Delete]) :=
  ⟨by decide,
    sync_local_song_action_shapes (fun _ => none) "d" true true [songA] []
      [some ⟨some "A", some "T"⟩] stFc (by decide) rfl 0 (by decide)⟩

/-! ### claim C7 -/

/-- C7: at a fixed point — every per-key list of remote positions has
exactly the length of that key's local queue, every queued song's
committed index equals its assigned remote position, entries are all
well-formed, and the loaded songs carry empty queues — the reconciler
succeeds and produces zero actions: the song list of the result is exactly
the input list (no queue touched, no new song created, and the delete pass
finds nothing to delete). -/
theorem sync_idempotent_at_fixed_point
    (fetch : String → Option String) (dir : String) (da ra : Bool)
    (songs0 : List Song) (cache0 : List (String × String))
    (entries : List (Option VideoInfo))
    (hacts : ∀ s ∈ songs0, s.actions = [])
    (hvalid : ∀ e ∈ entries, ∀ v : VideoInfo, e = some v → v.id ≠ none)
    (hlen : ∀ k, (keyPositions k entries 0).length =
      (queueOf (buildRemaining songs0) k).length)
    (hidx : ∀ k t j, (queueOf (buildRemaining songs0) k).get? t = some j →
      (songs0.getD j emptySong).index =
        some (((keyPositions k entries 0).getD t 0 : Nat) : Int)) :
    ∃ rem cch, sync fetch dir da ra songs0 cache0 entries = .ok ⟨songs0, rem, cch⟩ := by
  have inv0 := inv_init songs0 cache0 hacts
  have hle : ∀ k, (keyPositions k entries 0).length ≤
      (queueOf (buildRemaining songs0) k).length := fun k => le_of_eq (hlen k)
  obtain ⟨st', hloop⟩ := syncLoop_total fetch dir ra entries 0
    ⟨songs0, buildRemaining songs0, cache0⟩ inv0 hvalid hle
  have D := syncLoop_ok_spec fetch dir ra entries 0 _ st' inv0 hloop
  have hlenF : st'.songs.length = songs0.length := D.len_eq hle
  have hsongs : st'.songs = songs0 := by
    apply List.ext_getElem? 
    intro n
    rw [← List.get?_eq_getElem?, ← List.get?_eq_getElem?]
    by_cases hn : n < songs0.length
    · rcases em (∃ k, n ∈ queueOf (buildRemaining songs0) k) with ⟨k, hk⟩ | hq
      · obtain ⟨t, ht⟩ := (mem_iff_get?_some _ _).mp hk
        have hlt : t < (keyPositions k entries 0).length := by
          rw [hlen k]
          exact get?_some_lt _ t n ht
        have hmt := D.matched k t n ht hlt
        have hzero : matchedActions (songs0.getD n emptySong)
            ((keyPositions k entries 0).getD t 0) ra = [] := by
          rw [matchedActions, if_pos (hidx k t n ht)]
        have heq : st'.songs.getD n emptySong = songs0.getD n emptySong := by
          rw [hmt, hzero, List.append_nil]
        rw [get?_eq_some_getD st'.songs n emptySong (by omega),
          get?_eq_some_getD songs0 n emptySong hn, heq]
      · have hun := D.untouched n hn (fun k hc => hq ⟨k, hc⟩)
        rw [get?_eq_some_getD st'.songs n emptySong (by omega),
          get?_eq_some_getD songs0 n emptySong hn, hun]
    · have h1 : st'.songs.get? n = none := by
        rw [List.get?_eq_none]
        omega
      have h2 : songs0.get? n = none := by
        rw [List.get?_eq_none]
        omega
      rw [h1, h2]
  have hqF : ∀ k, queueOf st'.remaining k = [] := by
    intro k
    rw [D.queues k, hlen k, List.drop_length]
  have hjoinF : joinedQ st'.remaining = [] :=
    joinedQ_eq_nil_of_queues st'.remaining D.inv'.keys_nodup hqF
  refine ⟨st'.remaining, st'.cache, ?_⟩
  unfold sync
  rw [hloop]
  show Except.ok (if da then { st' with songs := appendDeletes st'.songs st'.remaining }
    else st') = _
  by_cases hda : da
  · rw [if_pos hda, appendDeletes_of_joined_nil st'.remaining st'.songs hjoinF, hsongs]
  · rw [if_neg hda, show st' = (⟨st'.songs, st'.remaining, st'.cache⟩ : SyncSt) from rfl,
      hsongs]

/-- two loaded songs sharing the id `"K"`, used by the concrete fixed-point
and duplicate-key scenarios. -/
def songK0 : Song :=
  { video_id := some "K", index := some 0, artist := none, title := some "k0",
    file := some "f0" }

/-- the later-loaded duplicate of `songK0`. -/
def songK1 : Song :=
  { video_id := some "K", index := some 1, artist := none, title := some "k1",
    file := some "f1" }

/-- witness for `sync_idempotent_at_fixed_point`: one song already at its
remote position. -/
theorem sync_idempotent_at_fixed_point_witness :
    ∃ rem cch, sync (fun _ => none) "d" true true [songK0] []
      [some ⟨some "K", some "T"⟩] = .ok ⟨[songK0], rem, cch⟩ := by
  have hvalid : ∀ e ∈ [some (⟨some "K", some "T"⟩ : VideoInfo)],
      ∀ v : VideoInfo, e = some v → v.id ≠ none := by
    intro e he v hv
    rw [List.mem_singleton] at he
    subst he
    injection hv with h
    rw [← h]
    decide
  have hlen : ∀ k, (keyPositions k [some ⟨some "K", some "T"⟩] 0).length =
      (queueOf (buildRemaining [songK0]) k).length := by
    intro k
    by_cases hk : "K" = k
    · subst hk
      decide
    · have h1 : keyPositions k [some ⟨some "K", some "T"⟩] 0 = [] := by
        rw [keyPositions_cons_some, if_neg (by simpa using hk)]
        rfl
      have h2 : queueOf (buildRemaining [songK0]) k = [] := by
        rw [show buildRemaining [songK0] = [("K", [0])] by decide]
        simp [queueOf, alookup, hk]
      rw [h1, h2]
  have hidx : ∀ k t j, (queueOf (buildRemaining [songK0]) k).get? t = some j →
      ([songK0].getD j emptySong).index =
        some (((keyPositions k [some ⟨some "K", some "T"⟩] 0).getD t 0 : Nat) : Int) := by
    intro k t j hget
    by_cases hk : "K" = k
    · subst hk
      rw [show queueOf (buildRemaining [songK0]) "K" = [0] by decide] at hget
      match t, hget with
      | 0, hget =>
        have hj : j = 0 := by simpa using hget.symm
        subst hj
        decide
      | t + 1, hget => simp at hget
    · rw [show buildRemaining [songK0] = [("K", [0])] by decide] at hget
      rw [show queueOf [("K", [0])] k = [] from by simp [queueOf, alookup, hk]] at hget
      simp at hget
  exact sync_idempotent_at_fixed_point (fun _ => none) "d" true true [songK0] []
    [some ⟨some "K", some "T"⟩] (by decide) hvalid hlen hidx

/-! ### claim C6 -/

/-- C6: `__post_init__` groups the local songs into per-key FIFO queues in
load order — the queue for `k` is exactly the ascending list of positions
of the songs carrying id `k`, songs without an id are excluded — and
duplicate keys resolve first-seen-first-matched: with exactly two local
items for `k` (earlier-loaded `j0`, later-loaded `j1`) and exactly two
remote entries for `k` at positions `p0 < p1`, a successful run gives `j0`
the actions for position `p0` and `j1` the actions for position `p1`,
deterministically (`sync` is a function). -/
theorem sync_duplicate_keys_fifo :
    (∀ (songs : List Song) (k : String),
      queueOf (buildRemaining songs) k = indicesWithKey songs 0 k) ∧
    (∀ (songs : List Song) (k : String) (j : Nat),
      j ∈ indicesWithKey songs 0 k ↔
        ∃ s, songs.get? j = some s ∧ s.video_id = some k) ∧
    (∀ (songs : List Song) (k : String), (indicesWithKey songs 0 k).Pairwise (· < ·)) ∧
    (∀ (fetch : String → Option String) (dir : String) (da ra : Bool)
      (songs0 : List Song) (cache0 : List (String × String))
      (entries : List (Option VideoInfo)) (k : String) (j0 j1 p0 p1 : Nat) (stF : SyncSt),
      (∀ s ∈ songs0, s.actions = []) →
      queueOf (buildRemaining songs0) k = [j0, j1] →
      keyPositions k entries 0 = [p0, p1] →
      sync fetch dir da ra songs0 cache0 entries = .ok stF →
      j0 < j1 ∧ p0 < p1 ∧
      (stF.songs.getD j0 emptySong).actions =
        matchedActions (songs0.getD j0 emptySong) p0 ra ∧
      (stF.songs.getD j1 emptySong).actions =
        matchedActions (songs0.getD j1 emptySong) p1 ra) := by
  refine ⟨queueOf_buildRemaining, ?_, ?_, ?_⟩
  · intro songs k j
    rw [mem_indicesWithKey k songs 0 j]
    constructor
    · rintro ⟨s, _, hget, hid⟩
      exact ⟨s, by simpa using hget, hid⟩
    · rintro ⟨s, hget, hid⟩
      exact ⟨s, Nat.zero_le j, by simpa using hget, hid⟩
  · intro songs k
    exact indicesWithKey_pairwise k songs 0
  · intro fetch dir da ra songs0 cache0 entries k j0 j1 p0 p1 stF hacts hQ hP hok
    have inv0 := inv_init songs0 cache0 hacts
    unfold sync at hok
    rcases hloop : syncLoop fetch dir ra 0 entries ⟨songs0, buildRemaining songs0, cache0⟩
      with e | st'
    · rw [hloop] at hok
      simp at hok
    · rw [hloop] at hok
      replace hok : (if da then { st' with songs := appendDeletes st'.songs st'.remaining }
          else st') = stF := by
        simpa using hok
      have hstF := hok.symm
      have D := syncLoop_ok_spec fetch dir ra entries 0 _ st' inv0 hloop
      have hQ' : indicesWithKey songs0 0 k = [j0, j1] := by
        rw [← queueOf_buildRemaining]
        exact hQ
      have hj01 : j0 < j1 := by
        have hpw := indicesWithKey_pairwise k songs0 0
        rw [hQ'] at hpw
        exact (List.pairwise_cons.mp hpw).1 j1 (List.mem_cons_self j1 [])
      have hp01 : p0 < p1 := by
        have hpw := keyPositions_pairwise k entries 0
        rw [hP] at hpw
        exact (List.pairwise_cons.mp hpw).1 p1 (List.mem_cons_self p1 [])
      have hget0 : (queueOf (buildRemaining songs0) k).get? 0 = some j0 := by
        rw [hQ]
        rfl
      have hget1 : (queueOf (buildRemaining songs0) k).get? 1 = some j1 := by
        rw [hQ]
        rfl
      have hlt0 : 0 < (keyPositions k entries 0).length := by
        rw [hP]
        simp
      have hlt1 : 1 < (keyPositions k entries 0).length := by
        rw [hP]
        simp
      have hb0 : j0 < songs0.length := inv0.bounded j0
        (queueOf_subset_joinedQ _ k (mem_of_get? hget0))
      have hb1 : j1 < songs0.length := inv0.bounded j1
        (queueOf_subset_joinedQ _ k (mem_of_get? hget1))
      have horig0 : (songs0.getD j0 emptySong).actions = [] :=
        hacts _ (getD_mem songs0 j0 emptySong hb0)
      have horig1 : (songs0.getD j1 emptySong).actions = [] :=
        hacts _ (getD_mem songs0 j1 emptySong hb1)
      have hfinal : ∀ (t j : Nat), (queueOf (buildRemaining songs0) k).get? t = some j →
          t < (keyPositions k entries 0).length →
          stF.songs.getD j emptySong = st'.songs.getD j emptySong := by
        intro t j hget hlt
        have hgone : ∀ k', j ∉ queueOf st'.remaining k' :=
          matched_gone D inv0.idx_nodup hget hlt
        have hnotJ : j ∉ joinedQ st'.remaining := by
          intro hc
          obtain ⟨k', hk'⟩ := mem_queueOf_of_mem_joined st'.remaining D.inv'.keys_nodup j hc
          exact hgone k' hk'
        rw [hstF]
        by_cases hda : da
        · rw [if_pos hda]
          exact appendDeletes_not_mem st'.remaining st'.songs j emptySong hnotJ
        · rw [if_neg hda]
      have hm0 := D.matched k 0 j0 hget0 hlt0
      have hm1 := D.matched k 1 j1 hget1 hlt1
      refine ⟨hj01, hp01, ?_, ?_⟩
      · rw [hfinal 0 j0 hget0 hlt0, hm0]
        show (songs0.getD j0 emptySong).actions ++
            matchedActions (songs0.getD j0 emptySong)
              ((keyPositions k entries 0).getD 0 0) ra =
          matchedActions (songs0.getD j0 emptySong) p0 ra
        rw [horig0, hP]
        rfl
      · rw [hfinal 1 j1 hget1 hlt1, hm1]
        show (songs0.getD j1 emptySong).actions ++
            matchedActions (songs0.getD j1 emptySong)
              ((keyPositions k entries 0).getD 1 0) ra =
          matchedActions (songs0.getD j1 emptySong) p1 ra
        rw [horig1, hP]
        rfl

/-- witness for `sync_duplicate_keys_fifo`: two songs sharing id `"K"`,
two remote entries for `"K"`; both already sit at their FIFO-assigned
positions, so both matched action lists are empty. -/
theorem sync_duplicate_keys_fifo_witness :
    0 < 1 ∧ 0 < 1 ∧
    ((⟨[songK0, songK1], [("K", [])], []⟩ : SyncSt).songs.getD 0 emptySong).actions =
      matchedActions ([songK0, songK1].getD 0 emptySong) 0 true ∧
    ((⟨[songK0, songK1], [("K", [])], []⟩ : SyncSt).songs.getD 1 emptySong).actions =
      matchedActions ([songK0, songK1].getD 1 emptySong) 1 true :=
  sync_duplicate_keys_fifo.2.2.2 (fun _ => none) "d" true true [songK0, songK1] []
    [some ⟨some "K", some "X"⟩, some ⟨some "K", some "Y"⟩] "K" 0 1 0 1
    ⟨[songK0, songK1], [("K", [])], []⟩ (by decide) (by decide) rfl rfl

end Ytss
